import Mathlib

/-!
Verification development for an incremental code-indexing service layer:
a structure indexer (`buildSnapshot`, `getSymbolAtPosition`), a call-graph
builder (`computeIntraFileCallEdges`, `rebuildForUri`) and a history
recorder (`computeDiffEvents`, `historyOnSnapshotUpdated`).

The definitions below are a shallow embedding of the TypeScript sources
(`codeStructureService.ts`, `codeGraphService`, `codeHistoryService`).
Documents are lists of characters; maps are modelled as functions or
association lists with JavaScript `Map` insertion-order semantics; the
regex based line matchers are hand-rolled matchers reproducing the regex
backtracking behaviour of the source patterns.
-/

set_option autoImplicit false

namespace CodeIndex

/-! ## Character classes

`isWordChar` models the JavaScript regex class `\w` = `[A-Za-z0-9_]`,
`isNameChar` models the identifier class `[A-Za-z0-9_$]` used by the
extraction regexes, and `isSpaceChar` models `\s` (restricted to the
ASCII whitespace characters, which are the only ones reachable here). -/

def isWordChar (c : Char) : Bool := c.isAlphanum || c = '_'

def isNameChar (c : Char) : Bool := c.isAlphanum || c = '_' || c = '$'

def isSpaceChar (c : Char) : Bool :=
  c = ' ' || c = '\t' || c = '\n' || c = '\r' || c = '\x0b' || c = '\x0c'

/-! ## Line splitting

`splitLines` models `text.split(/\r\n|\r|\n/)`: the alternation prefers
`\r\n` over a lone `\r` or `\n`, and splitting the empty text yields one
empty line. -/

def splitLines : List Char → List (List Char)
  | [] => [[]]
  | '\r' :: '\n' :: rest => [] :: splitLines rest
  | '\r' :: rest => [] :: splitLines rest
  | '\n' :: rest => [] :: splitLines rest
  | c :: rest =>
    match splitLines rest with
    | [] => [[c]]
    | l :: ls => (c :: l) :: ls

/-! ## Data model (`codeStructure.ts`) -/

inductive CodeSymbolKind where
  | File
  | Class
  | Method
  | Function
  | Property
  | Variable
  | Unknown
deriving DecidableEq, Repr

/-- Model of the editor `IRange`: 1-based start/end line and column. -/
structure IRange where
  startLineNumber : Nat
  startColumn : Nat
  endLineNumber : Nat
  endColumn : Nat
deriving DecidableEq, Repr

/-- Model of the editor `Position`: 1-based line number and column. -/
structure LitePosition where
  lineNumber : Nat
  column : Nat
deriving DecidableEq, Repr

/-- `SymbolNodeLite` from `codeStructure.ts`.  The `metrics` field only
ever carries the `loc` value in this codebase, so it is modelled as an
optional natural number.  File uris are modelled by their
`uri.toString()` key. -/
structure SymbolNodeLite where
  id : String
  name : String
  kind : CodeSymbolKind
  uri : String
  range : IRange
  selectionRange : IRange
  containerId : Option String
  metrics : Option Nat
deriving DecidableEq, Repr

/-- `FileStructureSnapshot` from `codeStructure.ts`. -/
structure FileStructureSnapshot where
  uri : String
  version : Nat
  languageId : String
  symbols : List SymbolNodeLite
  createdAt : Nat
deriving DecidableEq, Repr

/-! ## Regex-based line matchers

The extractor uses three anchored regexes:

* class lines: `^\s*(export\s+)?(abstract\s+)?class\s+([A-Za-z0-9_$]+)`
* function lines: `^\s*(export\s+)?(async\s+)?function\s+([A-Za-z0-9_$]+)`
* method lines: `^\s*(public\s+|private\s+|protected\s+)?(static\s+)?(async\s+)?([A-Za-z0-9_$]+)\s*\(`

Each optional group `(kw\s+)?` is matched with full backtracking: the
engine first tries to consume the keyword (which must be followed by at
least one whitespace character, consumed greedily) and falls back to
skipping the group if the continuation fails.  The `<|>` alternations
below reproduce exactly this order. -/

/-- Match `kw\s+` at the head of `s`, returning the remainder.  Greedy
consumption of `\s+` is safe because every continuation starts with a
non-whitespace character. -/
def parseKeywordWs (kw : List Char) (s : List Char) : Option (List Char) :=
  if (s.take kw.length) = kw then
    match s.drop kw.length with
    | c :: rest => if isSpaceChar c then some ((c :: rest).dropWhile isSpaceChar) else none
    | [] => none
  else none

/-- Match `([A-Za-z0-9_$]+)` at the head of `s` (maximal munch). -/
def matchIdent (s : List Char) : Option (List Char) :=
  let nm := s.takeWhile isNameChar
  if nm = [] then none else some nm

/-- Match `([A-Za-z0-9_$]+)\s*\(` at the head of `s`, returning the name. -/
def matchNameParen (s : List Char) : Option (List Char) :=
  match matchIdent s with
  | none => none
  | some nm =>
    match (s.drop nm.length).dropWhile isSpaceChar with
    | '(' :: _ => some nm
    | _ => none

/-- One optional group `(kw\s+)?` with regex backtracking: first try to
consume the keyword and run the continuation, fall back to running the
continuation in place. -/
def tryKeyword (kw : List Char) (k : List Char → Option (List Char)) (s : List Char) :
    Option (List Char) :=
  match parseKeywordWs kw s with
  | some s' => k s'
  | none => none

/-- `^\s*(export\s+)?(abstract\s+)?class\s+([A-Za-z0-9_$]+)`, returning
the captured class name. -/
def execClassRegex (line : List Char) : Option (List Char) :=
  let m3 : List Char → Option (List Char) := fun s => tryKeyword "class".data matchIdent s
  let m2 : List Char → Option (List Char) := fun s => tryKeyword "abstract".data m3 s <|> m3 s
  let m1 : List Char → Option (List Char) := fun s => tryKeyword "export".data m2 s <|> m2 s
  m1 (line.dropWhile isSpaceChar)

/-- `^\s*(export\s+)?(async\s+)?function\s+([A-Za-z0-9_$]+)`, returning
the captured function name. -/
def execFunctionRegex (line : List Char) : Option (List Char) :=
  let m3 : List Char → Option (List Char) := fun s => tryKeyword "function".data matchIdent s
  let m2 : List Char → Option (List Char) := fun s => tryKeyword "async".data m3 s <|> m3 s
  let m1 : List Char → Option (List Char) := fun s => tryKeyword "export".data m2 s <|> m2 s
  m1 (line.dropWhile isSpaceChar)

/-- `^\s*(public\s+|private\s+|protected\s+)?(static\s+)?(async\s+)?([A-Za-z0-9_$]+)\s*\(`,
returning the captured method name. -/
def execMethodRegex (line : List Char) : Option (List Char) :=
  let m3 : List Char → Option (List Char) := fun s =>
    tryKeyword "async".data matchNameParen s <|> matchNameParen s
  let m2 : List Char → Option (List Char) := fun s => tryKeyword "static".data m3 s <|> m3 s
  let m1 : List Char → Option (List Char) := fun s =>
    tryKeyword "public".data m2 s <|> tryKeyword "private".data m2 s <|>
    tryKeyword "protected".data m2 s <|> m2 s
  m1 (line.dropWhile isSpaceChar)

/-- `line.indexOf(pat)` for a pattern known to occur in `line` (the
captured name always does); returns `line.length` when absent, a case
that is unreachable in this development. -/
def firstIdx (line pat : List Char) : Nat :=
  match line with
  | [] => 0
  | _ :: rest => if (line.take pat.length) = pat then 0 else 1 + firstIdx rest pat

/-- `buildSymbolId` from `codeStructureService.ts`:
`` `${uri.toString()}::${name}@${lineNumber}` ``. -/
def buildSymbolId (uri : String) (name : String) (lineNumber : Nat) : String :=
  uri ++ "::" ++ name ++ "@" ++ Nat.repr lineNumber

/-- `basename(uri)`: the final path segment of the uri. -/
def basename (uri : String) : String :=
  String.mk ((uri.data.reverse.takeWhile (fun c => c ≠ '/')).reverse)

/-- The Class symbol emitted for a matched class line: its range is the
name's column span on the declaration line (`line.indexOf(name)`). -/
def classSymbol (uri : String) (line nm : List Char) (lineNumber : Nat) : SymbolNodeLite :=
  let name := String.mk nm
  let nameColumn := firstIdx line nm + 1
  let range : IRange := ⟨lineNumber, nameColumn, lineNumber, nameColumn + nm.length⟩
  { id := buildSymbolId uri name lineNumber, name := name, kind := CodeSymbolKind.Class,
    uri := uri, range := range, selectionRange := range, containerId := none, metrics := none }

/-- The Function symbol emitted for a matched function line. -/
def functionSymbol (uri : String) (line nm : List Char) (lineNumber : Nat) : SymbolNodeLite :=
  let name := String.mk nm
  let nameColumn := firstIdx line nm + 1
  let range : IRange := ⟨lineNumber, nameColumn, lineNumber, nameColumn + nm.length⟩
  { id := buildSymbolId uri name lineNumber, name := name, kind := CodeSymbolKind.Function,
    uri := uri, range := range, selectionRange := range, containerId := none, metrics := none }

/-- The Method symbol emitted for a matched method line inside a class:
its id embeds the owning class id (`name@containerId`). -/
def methodSymbol (uri : String) (line nm : List Char) (lineNumber : Nat)
    (cid : String) : SymbolNodeLite :=
  let name := String.mk nm
  let nameColumn := firstIdx line nm + 1
  let range : IRange := ⟨lineNumber, nameColumn, lineNumber, nameColumn + nm.length⟩
  { id := buildSymbolId uri (name ++ "@" ++ cid) lineNumber, name := name,
    kind := CodeSymbolKind.Method, uri := uri, range := range, selectionRange := range,
    containerId := some cid, metrics := none }

/-- The line scanning loop of `buildSnapshot`: walk the lines in order
carrying the "current enclosing class" id.  A class line emits a Class
symbol and becomes the enclosing class; a function line emits a Function
symbol (the enclosing class is untouched); any other line matching the
method pattern while a class is active emits a Method symbol owned by
that class; a blank line resets the enclosing class. -/
def scanLines (uri : String) : List (List Char) → Nat → Option String → List SymbolNodeLite
  | [], _, _ => []
  | line :: rest, lineNumber, currentClassId =>
    match execClassRegex line with
    | some nm =>
      classSymbol uri line nm lineNumber
        :: scanLines uri rest (lineNumber + 1) (some (classSymbol uri line nm lineNumber).id)
    | none =>
      match execFunctionRegex line with
      | some nm =>
        functionSymbol uri line nm lineNumber
          :: scanLines uri rest (lineNumber + 1) currentClassId
      | none =>
        match execMethodRegex line, currentClassId with
        | some nm, some cid =>
          methodSymbol uri line nm lineNumber cid
            :: scanLines uri rest (lineNumber + 1) currentClassId
        | _, _ =>
          if line.all isSpaceChar then scanLines uri rest (lineNumber + 1) none
          else scanLines uri rest (lineNumber + 1) currentClassId

/-- The synthetic File symbol prepended by `buildSnapshot`: it spans
line 1 column 1 to the last line's end column
(`lines[lines.length - 1]?.length + 1 || 1`). -/
def fileSymbolOf (uri : String) (lines : List (List Char)) : SymbolNodeLite :=
  { id := buildSymbolId uri "<file>" 1
    name := basename uri
    kind := CodeSymbolKind.File
    uri := uri
    range := ⟨1, 1, max 1 lines.length,
      match lines.getLast? with
      | some l => l.length + 1
      | none => 1⟩
    selectionRange := ⟨1, 1, 1, 1⟩
    containerId := none
    metrics := some lines.length }

/-- `buildSnapshot` from `codeStructureService.ts`. -/
def buildSnapshot (uri : String) (version : Nat) (languageId : String)
    (text : List Char) (now : Nat) : FileStructureSnapshot :=
  let lines := splitLines text
  let symbols := scanLines uri lines 1 none
  { uri := uri, version := version, languageId := languageId,
    symbols := fileSymbolOf uri lines :: symbols, createdAt := now }

/-! ## Position containment and symbol lookup -/

/-- `containsPosition` from `codeStructureService.ts`: inclusive line
containment with column checks on the first and last line of the range. -/
def containsPosition (range : IRange) (position : LitePosition) : Bool :=
  if position.lineNumber < range.startLineNumber || position.lineNumber > range.endLineNumber then
    false
  else if position.lineNumber = range.startLineNumber && position.column < range.startColumn then
    false
  else if position.lineNumber = range.endLineNumber && position.column > range.endColumn then
    false
  else true

/-- The loop of `getSymbolAtPosition`: first symbol in snapshot order
whose range contains the position. -/
def firstSymbolContaining : List SymbolNodeLite → LitePosition → Option SymbolNodeLite
  | [], _ => none
  | s :: rest, position =>
    if containsPosition s.range position then some s
    else firstSymbolContaining rest position

/-- `getSymbolAtPosition` from `codeStructureService.ts`, with the
snapshot lookup already performed (`none` models a missing snapshot). -/
def getSymbolAtPosition (snapshot : Option FileStructureSnapshot)
    (position : LitePosition) : Option SymbolNodeLite :=
  match snapshot with
  | none => none
  | some snap => firstSymbolContaining snap.symbols position

/-! ## Offsets and positions

`positionAt` models `ITextModel.getPositionAt`: it converts a 0-based
character offset into a 1-based line/column position, recognising the
same `\r\n`, `\r`, `\n` line terminators as `splitLines`. -/

def positionAtAux : List Char → Nat → Nat → Nat → LitePosition
  | _, 0, line, col => ⟨line, col⟩
  | [], _ + 1, line, col => ⟨line, col⟩
  | '\r' :: '\n' :: rest, o + 1, line, col =>
    match o with
    | 0 => ⟨line, col + 1⟩
    | o' + 1 => positionAtAux rest o' (line + 1) 1
  | '\r' :: rest, o + 1, line, _ => positionAtAux rest o (line + 1) 1
  | '\n' :: rest, o + 1, line, _ => positionAtAux rest o (line + 1) 1
  | _ :: rest, o + 1, line, col => positionAtAux rest o line (col + 1)

def positionAt (text : List Char) (offset : Nat) : LitePosition :=
  positionAtAux text offset 1 1

/-! ## The call scan

`computeIntraFileCallEdges` scans the whole document once per distinct
callable name with the global regex `` `\b${name}\s*\(` `` and records
the match start offsets.  `matchCallAt` decides whether the pattern
matches at one offset; `scanCallsAux` advances like repeated
`regex.exec`: from the current start position it finds the next match
and resumes after the end of the consumed text. -/

/-- The `\b` assertion of the scan regex at offset `i`: the position lies
between a word (`\w`) character and a non-word character (positions
outside the text count as non-word). -/
def wordBoundaryBefore (text : List Char) (i : Nat) : Bool :=
  let isW : Nat → Bool := fun j =>
    match text.get? j with
    | some c => isWordChar c
    | none => false
  (match i with
   | 0 => false
   | j + 1 => isW j) != isW i

/-- The final `\(` step of the call pattern: succeed with value `v` iff
the remaining text starts with an opening parenthesis. -/
def parenNext (v : Nat) (l : List Char) : Option Nat :=
  match l with
  | '(' :: _ => some v
  | _ => none

/-- Match `` `\b${name}\s*\(` `` at offset `i`; on success return the end
offset of the consumed match (one past the opening parenthesis). -/
def matchCallAt (text name : List Char) (i : Nat) : Option Nat :=
  if wordBoundaryBefore text i ∧ (text.drop i).take name.length = name then
    let rest := (text.drop i).drop name.length
    let w := (rest.takeWhile isSpaceChar).length
    parenNext (i + name.length + w + 1) (rest.drop w)
  else none

def scanCallsAux (text name : List Char) : Nat → Nat → List Nat
  | 0, _ => []
  | fuel + 1, i =>
    if i < text.length then
      match matchCallAt text name i with
      | some e => i :: scanCallsAux text name fuel e
      | none => scanCallsAux text name fuel (i + 1)
    else []

/-- All match start offsets of `` `\b${name}\s*\(` `` over `text`, in
order, with non-overlapping consumption as performed by `regex.exec`. -/
def scanCalls (text name : List Char) : List Nat :=
  scanCallsAux text name (text.length + 1) 0

/-! ## Call-graph data model (`codeGraph.ts`) -/

inductive GraphEdgeKind where
  | Call
  | Import
  | Export
deriving DecidableEq, Repr

structure GraphEdge where
  from_ : String
  to_ : String
  kind : GraphEdgeKind
deriving DecidableEq, Repr

/-! ## `computeIntraFileCallEdges` -/

/-- One insertion into the `symbolByName` JavaScript `Map`: the value
list of an existing key is extended in place, a new key is appended. -/
def insertByName : List (String × List SymbolNodeLite) → String → SymbolNodeLite →
    List (String × List SymbolNodeLite)
  | [], k, v => [(k, [v])]
  | (k', l) :: r, k, v =>
    if k' = k then (k', l ++ [v]) :: r else (k', l) :: insertByName r k v

/-- Group the Function/Method symbols of a snapshot by name, in
insertion order. -/
def groupByName (symbols : List SymbolNodeLite) : List (String × List SymbolNodeLite) :=
  symbols.foldl
    (fun m s =>
      if s.kind = CodeSymbolKind.Function ∨ s.kind = CodeSymbolKind.Method then
        insertByName m s.name s
      else m)
    []

/-- The dedup key `` `${fromSymbol.id}->${target.id}` ``. -/
def edgeKey (f t : String) : String := f ++ "->" ++ t

/-- Push one candidate edge unless its key was already seen. -/
def pushEdge (st : List GraphEdge × List String) (f t : String) :
    List GraphEdge × List String :=
  if edgeKey f t ∈ st.2 then st
  else (st.1 ++ [⟨f, t, GraphEdgeKind.Call⟩], st.2 ++ [edgeKey f t])

/-- Emit one edge per same-named candidate target. -/
def pushTargets (st : List GraphEdge × List String) (f : String)
    (targets : List SymbolNodeLite) : List GraphEdge × List String :=
  targets.foldl (fun st t => pushEdge st f t.id) st

/-- `findContainingSymbol` from the graph service: the first symbol in
snapshot order whose range contains the position and whose kind is not
File (a containing File symbol does not stop the search). -/
def findContainingSymbol : List SymbolNodeLite → LitePosition → Option SymbolNodeLite
  | [], _ => none
  | s :: rest, position =>
    if containsPosition s.range position ∧ s.kind ≠ CodeSymbolKind.File then some s
    else findContainingSymbol rest position

/-- Process one match offset: resolve the enclosing symbol (falling back
to the File symbol) and emit edges to every candidate target. -/
def processOffset (symbols : List SymbolNodeLite) (fileSymbol : Option SymbolNodeLite)
    (text : List Char) (targets : List SymbolNodeLite)
    (st : List GraphEdge × List String) (offset : Nat) : List GraphEdge × List String :=
  let position := positionAt text offset
  let fromSymbol :=
    match findContainingSymbol symbols position with
    | some s => some s
    | none => fileSymbol
  match fromSymbol with
  | none => st
  | some fs => pushTargets st fs.id targets

/-- Process one `symbolByName` entry: scan the text for the name and
handle every match offset. -/
def processName (symbols : List SymbolNodeLite) (fileSymbol : Option SymbolNodeLite)
    (text : List Char) (st : List GraphEdge × List String)
    (entry : String × List SymbolNodeLite) : List GraphEdge × List String :=
  (scanCalls text entry.1.data).foldl (processOffset symbols fileSymbol text entry.2) st

/-- `computeIntraFileCallEdges` from the graph service. -/
def computeIntraFileCallEdges (snapshot : FileStructureSnapshot) (text : List Char) :
    List GraphEdge :=
  let symbols := snapshot.symbols
  let fileSymbol := symbols.find? (fun s => decide (s.kind = CodeSymbolKind.File))
  ((groupByName symbols).foldl (processName symbols fileSymbol text) ([], [])).1

/-! ## Graph service state (`rebuildForUri`, edge indexes)

The service's `Map`s are modelled as functions from keys.  The getters
apply the source's `?? []` defaults, so an absent entry and an empty
entry are observationally equal; `removeEdges` compares edges
structurally (the source compares object identity, which coincides with
structural equality on all reachable states because symbol ids embed the
file uri and line and each pass deduplicates `(from, to)` pairs). -/

def MAX_FILE_LENGTH_FOR_SCAN : Nat := 200000

structure GraphState where
  fileGraphs : String → Option (List GraphEdge)
  outgoingEdges : String → List GraphEdge
  incomingEdges : String → List GraphEdge
  symbolToFile : String → Option String

/-- Pointwise update of a function-modelled map. -/
def setAt {β : Type} (m : String → β) (k : String) (v : β) : String → β :=
  fun k' => if k' = k then v else m k'

def initialGraphState : GraphState :=
  { fileGraphs := fun _ => none
    outgoingEdges := fun _ => []
    incomingEdges := fun _ => []
    symbolToFile := fun _ => none }

def getCallees (st : GraphState) (symbolId : String) : List GraphEdge :=
  st.outgoingEdges symbolId

def getCallers (st : GraphState) (symbolId : String) : List GraphEdge :=
  st.incomingEdges symbolId

def getEdgesForFile (st : GraphState) (uriKey : String) : List GraphEdge :=
  match st.fileGraphs uriKey with
  | some edges => edges
  | none => []

/-- `addEdges`: push each edge onto the caller's outgoing list and the
callee's incoming list. -/
def addEdges (st : GraphState) : List GraphEdge → GraphState
  | [] => st
  | e :: rest =>
    addEdges
      { st with
        outgoingEdges := setAt st.outgoingEdges e.from_ (st.outgoingEdges e.from_ ++ [e])
        incomingEdges := setAt st.incomingEdges e.to_ (st.incomingEdges e.to_ ++ [e]) }
      rest

/-- `removeEdges`: filter each edge out of its outgoing and incoming
buckets. -/
def removeEdges (st : GraphState) : List GraphEdge → GraphState
  | [] => st
  | e :: rest =>
    removeEdges
      { st with
        outgoingEdges :=
          setAt st.outgoingEdges e.from_ ((st.outgoingEdges e.from_).filter (fun x => decide (x ≠ e)))
        incomingEdges :=
          setAt st.incomingEdges e.to_ ((st.incomingEdges e.to_).filter (fun x => decide (x ≠ e))) }
      rest

/-- `rebuildForUri` from the graph service: given the current snapshot
and document text for a file (each `none` models the corresponding early
return), remove the file's previous edge set from both indexes, store
and index the freshly computed edge set, refresh `symbolToFile` and fire
`onDidUpdateGraphForUri`.  Files longer than `MAX_FILE_LENGTH_FOR_SCAN`
are skipped with a debug log and no error.  The result carries the new
state, the fired events and the debug log messages. -/
def rebuildForUri (st : GraphState) (uriKey : String)
    (snapshot : Option FileStructureSnapshot) (modelText : Option (List Char)) :
    GraphState × List String × List String :=
  match snapshot with
  | none => (st, [], [])
  | some snap =>
    match modelText with
    | none => (st, [], [])
    | some text =>
      if text.length > MAX_FILE_LENGTH_FOR_SCAN then
        (st, [], ["[CodeGraphService] Skipping graph rebuild for large file"])
      else
        let st1 :=
          match st.fileGraphs uriKey with
          | some oldEdges => removeEdges st oldEdges
          | none => st
        let newEdges := computeIntraFileCallEdges snap text
        let st2 := { st1 with fileGraphs := setAt st1.fileGraphs uriKey (some newEdges) }
        let st3 := addEdges st2 newEdges
        let st4 := snap.symbols.foldl
          (fun s sym => { s with symbolToFile := setAt s.symbolToFile sym.id (some uriKey) }) st3
        (st4, [uriKey], [])

/-! ## Structure indexer state (`CodeStructureService`)

The service owns the snapshot map and one debounced `RunOnceScheduler`
per tracked file; a scheduler entry is modelled by the pending flag of
its timer.  `recomputeSnapshot` wraps extraction in try/catch: the
extraction result is passed as an `Except` value so that the handler's
control flow (store-and-fire on success, log-and-keep on failure) is
explicit.  Note that `recomputeSnapshot` performs no document-size
check: the `MAX_FILE_LENGTH_FOR_SCAN` ceiling lives in the graph
service's `rebuildForUri` only. -/

structure IndexerState where
  snapshots : String → Option FileStructureSnapshot
  schedulers : String → Option Bool

def initialIndexerState : IndexerState :=
  { snapshots := fun _ => none, schedulers := fun _ => none }

def getSnapshot (st : IndexerState) (uriKey : String) : Option FileStructureSnapshot :=
  st.snapshots uriKey

/-- `recomputeSnapshot` with the extraction outcome made explicit: on
success the snapshot map is updated and `onDidUpdateSnapshot` fires; on
an extraction exception the error is logged and the state is untouched.
The result carries the new state, the fired events and the log
messages. -/
def recomputeSnapshotWith (st : IndexerState) (uriKey : String)
    (extraction : Except String FileStructureSnapshot) :
    IndexerState × List String × List String :=
  match extraction with
  | Except.ok snapshot =>
    ({ st with snapshots := setAt st.snapshots uriKey (some snapshot) }, [uriKey], [])
  | Except.error _ =>
    (st, [], ["[CodeStructureService] Failed to compute snapshot"])

/-- `recomputeSnapshot` in the normal case: `buildSnapshot` is total in
this model, so extraction always succeeds. -/
def recomputeSnapshot (st : IndexerState) (uriKey : String) (version : Nat)
    (languageId : String) (text : List Char) (now : Nat) :
    IndexerState × List String × List String :=
  recomputeSnapshotWith st uriKey (Except.ok (buildSnapshot uriKey version languageId text now))

/-- The indexer's `onModelRemoved` handler: dispose (cancel) the file's
scheduler and drop it from the scheduler map. -/
def indexerOnModelRemoved (st : IndexerState) (uriKey : String) : IndexerState :=
  { st with schedulers := setAt st.schedulers uriKey none }

/-- The indexer's `onWillDispose` listener for a tracked model: drop the
scheduler entry and the file's snapshot. -/
def indexerOnWillDispose (st : IndexerState) (uriKey : String) : IndexerState :=
  { snapshots := setAt st.snapshots uriKey none
    schedulers := setAt st.schedulers uriKey none }

/-! ## History recorder (`CodeHistoryService`) -/

inductive HistoryEventKind where
  | SymbolAdded
  | SymbolRemoved
  | SymbolChanged
deriving DecidableEq, Repr

structure SnapshotRef where
  uri : String
  version : Nat
deriving DecidableEq, Repr

structure CodeHistoryEvent where
  id : String
  uri : String
  symbolId : Option String
  kind : HistoryEventKind
  timestamp : Nat
  summary : String
  snapshot : SnapshotRef
deriving DecidableEq, Repr

structure PerFileHistory where
  events : List CodeHistoryEvent
  lastSnapshot : Option FileStructureSnapshot
deriving DecidableEq, Repr

/-- History recorder state: the per-file map plus the module-level
`NEXT_EVENT_ID` counter. -/
structure HistoryState where
  perFile : String → Option PerFileHistory
  nextEventId : Nat

def initialHistoryState : HistoryState :=
  { perFile := fun _ => none, nextEventId := 1 }

def getEventsForFile (st : HistoryState) (uriKey : String) : List CodeHistoryEvent :=
  match st.perFile uriKey with
  | some history => history.events
  | none => []

/-- `createEvent`, with the `NEXT_EVENT_ID++` counter passed explicitly. -/
def createEvent (counter : Nat) (uri : String) (symbolId : Option String)
    (kind : HistoryEventKind) (summary : String) (now : Nat) (ref : SnapshotRef) :
    CodeHistoryEvent :=
  { id := Nat.repr counter, uri := uri, symbolId := symbolId, kind := kind,
    timestamp := now, summary := summary, snapshot := ref }

/-- One `map.set(key, value)` step on a JavaScript `Map` modelled as an
association list: an existing key keeps its position and gets the new
value, a new key is appended. -/
def assocSet {β : Type} : List (String × β) → String → β → List (String × β)
  | [], k, v => [(k, v)]
  | (k', v') :: r, k, v =>
    if k' = k then (k, v) :: r else (k', v') :: assocSet r k v

def assocGet {β : Type} : List (String × β) → String → Option β
  | [], _ => none
  | (k', v') :: r, k => if k' = k then some v' else assocGet r k

/-- The id→name map built over a snapshot's symbols. -/
def idNameMap (symbols : List SymbolNodeLite) : List (String × String) :=
  symbols.foldl (fun m s => assocSet m s.id s.name) []

/-- First pass of `computeDiffEvents`: for each id present in the
previous map and absent in the next, emit `SymbolRemoved`. -/
def diffRemovedPass (uri : String) (now : Nat) (ref : SnapshotRef)
    (nextById : List (String × String)) :
    List (String × String) → Nat → List CodeHistoryEvent →
    List CodeHistoryEvent × Nat
  | [], counter, acc => (acc, counter)
  | (id, prevName) :: rest, counter, acc =>
    if (assocGet nextById id).isSome then
      diffRemovedPass uri now ref nextById rest counter acc
    else
      diffRemovedPass uri now ref nextById rest (counter + 1)
        (acc ++ [createEvent counter uri (some id) HistoryEventKind.SymbolRemoved
          ("Removed symbol " ++ prevName) now ref])

/-- Second pass of `computeDiffEvents`: for each id in the next map,
emit `SymbolAdded` when absent from the previous map, `SymbolChanged`
when present with a different name. -/
def diffAddedChangedPass (uri : String) (now : Nat) (ref : SnapshotRef)
    (prevById : List (String × String)) :
    List (String × String) → Nat → List CodeHistoryEvent →
    List CodeHistoryEvent × Nat
  | [], counter, acc => (acc, counter)
  | (id, nextName) :: rest, counter, acc =>
    match assocGet prevById id with
    | none =>
      diffAddedChangedPass uri now ref prevById rest (counter + 1)
        (acc ++ [createEvent counter uri (some id) HistoryEventKind.SymbolAdded
          ("Added symbol " ++ nextName) now ref])
    | some prevName =>
      if prevName ≠ nextName then
        diffAddedChangedPass uri now ref prevById rest (counter + 1)
          (acc ++ [createEvent counter uri (some id) HistoryEventKind.SymbolChanged
            ("Renamed symbol " ++ prevName ++ " -> " ++ nextName) now ref])
      else
        diffAddedChangedPass uri now ref prevById rest counter acc

/-- `computeDiffEvents` from the history service, threading the event-id
counter; returns the emitted events (removals first, then
additions/changes) and the next counter value. -/
def computeDiffEvents (previous next : FileStructureSnapshot) (counter : Nat)
    (now : Nat) : List CodeHistoryEvent × Nat :=
  let prevById := idNameMap previous.symbols
  let nextById := idNameMap next.symbols
  let ref : SnapshotRef := { uri := next.uri, version := next.version }
  let removed := diffRemovedPass next.uri now ref nextById prevById counter []
  diffAddedChangedPass next.uri now ref prevById nextById removed.2 removed.1

/-- The history recorder's `onSnapshotUpdated` handler: resolve the
model and the fresh snapshot (each `none` models the corresponding early
return), remember the fresh snapshot, and when a previous snapshot was
remembered, append the diff events and fire `onDidRecordEvent` for each.
The computed diff is total in this model, so the try/catch around it has
no error path. -/
def historyOnSnapshotUpdated (st : HistoryState) (uriKey : String)
    (modelPresent : Bool) (snapshot : Option FileStructureSnapshot) (now : Nat) :
    HistoryState × List CodeHistoryEvent :=
  if modelPresent = false then (st, [])
  else
    match snapshot with
    | none => (st, [])
    | some snap =>
      let history :=
        match st.perFile uriKey with
        | some h => h
        | none => ({ events := [], lastSnapshot := none } : PerFileHistory)
      match history.lastSnapshot with
      | none =>
        let history' : PerFileHistory := { history with lastSnapshot := some snap }
        ({ st with perFile := setAt st.perFile uriKey (some history') }, [])
      | some previousSnapshot =>
        let diff := computeDiffEvents previousSnapshot snap st.nextEventId now
        let history' : PerFileHistory :=
          { events := history.events ++ diff.1, lastSnapshot := some snap }
        ({ perFile := setAt st.perFile uriKey (some history'), nextEventId := diff.2 }, diff.1)

/-- The history recorder's `onModelRemoved` handler: clear only the
remembered last snapshot; the recorded events are retained. -/
def historyOnModelRemoved (st : HistoryState) (uriKey : String) : HistoryState :=
  { st with perFile :=
      match st.perFile uriKey with
      | some history => setAt st.perFile uriKey (some { history with lastSnapshot := none })
      | none => st.perFile }

/-! ## Document removal across the three services

When a tracked document is removed the host fires the model-removal and
model-dispose notifications.  The structure indexer reacts with
`indexerOnModelRemoved` and `indexerOnWillDispose`; the history recorder
reacts with `historyOnModelRemoved`; the graph service registers no
listener for document removal, so its state passes through unchanged. -/

def documentRemoved (ist : IndexerState) (gst : GraphState) (hst : HistoryState)
    (uriKey : String) : IndexerState × GraphState × HistoryState :=
  (indexerOnWillDispose (indexerOnModelRemoved ist uriKey) uriKey,
   gst,
   historyOnModelRemoved hst uriKey)

/-! ## Specification-side predicates

These restate the specification's wording of containment, to be compared
with the source's `containsPosition`. -/

/-- The specification's containment rule: inclusive in lines, and on the
range's first (resp. last) line the column must be at or after the start
column (resp. at or before the end column). -/
def specContainsPosition (range : IRange) (position : LitePosition) : Prop :=
  range.startLineNumber ≤ position.lineNumber ∧
  position.lineNumber ≤ range.endLineNumber ∧
  (position.lineNumber = range.startLineNumber → range.startColumn ≤ position.column) ∧
  (position.lineNumber = range.endLineNumber → position.column ≤ range.endColumn)

instance (range : IRange) (position : LitePosition) :
    Decidable (specContainsPosition range position) := by
  unfold specContainsPosition; infer_instance

/-- `inner` is contained within `outer`: both corner positions of
`inner` satisfy the containment rule for `outer`. -/
def rangeContainedIn (inner outer : IRange) : Prop :=
  specContainsPosition outer ⟨inner.startLineNumber, inner.startColumn⟩ ∧
  specContainsPosition outer ⟨inner.endLineNumber, inner.endColumn⟩

instance (inner outer : IRange) : Decidable (rangeContainedIn inner outer) := by
  unfold rangeContainedIn; infer_instance

/-! ## Basic lemmas -/

@[simp]
theorem setAt_self {β : Type} (m : String → β) (k : String) (v : β) : setAt m k v k = v := by
  simp [setAt]

theorem setAt_ne {β : Type} (m : String → β) (k k' : String) (v : β) (h : k' ≠ k) :
    setAt m k v k' = m k' := by
  simp [setAt, h]

set_option linter.unnecessarySeqFocus false in
theorem containsPosition_iff (range : IRange) (position : LitePosition) :
    containsPosition range position = true ↔ specContainsPosition range position := by
  simp only [containsPosition, specContainsPosition]
  split_ifs with h1 h2 h3 <;> simp_all <;> omega

theorem firstSymbolContaining_eq_find (l : List SymbolNodeLite) (position : LitePosition) :
    firstSymbolContaining l position =
      l.find? (fun s => containsPosition s.range position) := by
  induction l with
  | nil => rfl
  | cons s rest ih =>
    simp only [firstSymbolContaining, List.find?]
    cases h : containsPosition s.range position <;> simp [h, ih]

/-! ## Claim C7 -/

/-- Claim C7: for every file with a snapshot and every position,
`getSymbolAtPosition` returns the first symbol in snapshot iteration
order whose range contains the position, containment being inclusive in
lines and columns with the stated boundary handling; it returns absent
when no snapshot exists or when no symbol's range contains the
position. -/
theorem c7_getSymbolAtPosition (snap : FileStructureSnapshot) (position : LitePosition) :
    getSymbolAtPosition none position = none ∧
    getSymbolAtPosition (some snap) position =
      snap.symbols.find? (fun s => containsPosition s.range position) ∧
    (∀ range : IRange, containsPosition range position = true ↔ specContainsPosition range position) ∧
    ((∀ s ∈ snap.symbols, ¬ specContainsPosition s.range position) →
      getSymbolAtPosition (some snap) position = none) := by
  refine ⟨rfl, firstSymbolContaining_eq_find _ _, fun range => containsPosition_iff _ _, ?_⟩
  intro h
  rw [getSymbolAtPosition, firstSymbolContaining_eq_find]
  rw [List.find?_eq_none]
  intro s hs
  have := h s hs
  rw [← containsPosition_iff] at this
  simpa using this

theorem c7_getSymbolAtPosition_witness :
    getSymbolAtPosition
      (some (buildSnapshot "file:///t.ts" 1 "typescript"
        "function a(){ b(); }\nfunction b(){}".data 0))
      ⟨5, 1⟩ = none :=
  (c7_getSymbolAtPosition
    (buildSnapshot "file:///t.ts" 1 "typescript"
      "function a(){ b(); }\nfunction b(){}".data 0) ⟨5, 1⟩).2.2.2 (by decide)

/-! ## Claim C9 -/

/-- Claim C9: for every snapshot and every position within the
document's full range (the File symbol's range), `getSymbolAtPosition`
returns the File-kind symbol: the File symbol is first in snapshot
order and spans the whole document, so the first-match rule never
reaches a non-File symbol. -/
theorem c9_file_symbol_shadows (uri : String) (version : Nat) (languageId : String)
    (text : List Char) (now : Nat) (position : LitePosition)
    (h : containsPosition (fileSymbolOf uri (splitLines text)).range position = true) :
    getSymbolAtPosition (some (buildSnapshot uri version languageId text now)) position =
      some (fileSymbolOf uri (splitLines text)) ∧
    ∀ s, getSymbolAtPosition (some (buildSnapshot uri version languageId text now)) position =
      some s → s.kind = CodeSymbolKind.File := by
  have hmain :
      getSymbolAtPosition (some (buildSnapshot uri version languageId text now)) position =
        some (fileSymbolOf uri (splitLines text)) := by
    simp [getSymbolAtPosition, buildSnapshot, firstSymbolContaining, h]
  refine ⟨hmain, ?_⟩
  intro s hs
  rw [hmain] at hs
  cases hs
  rfl

theorem c9_file_symbol_shadows_witness :
    getSymbolAtPosition
      (some (buildSnapshot "file:///t.ts" 1 "typescript"
        "function a(){ b(); }\nfunction b(){}".data 0))
      ⟨1, 15⟩ =
      some (fileSymbolOf "file:///t.ts"
        (splitLines "function a(){ b(); }\nfunction b(){}".data)) :=
  (c9_file_symbol_shadows "file:///t.ts" 1 "typescript"
    "function a(){ b(); }\nfunction b(){}".data 0 ⟨1, 15⟩ (by decide)).1

/-! ## Claim C6 -/

/-- Claim C6: if extraction throws during a recomputation pass, the
exception is caught and logged, the stored snapshot for the file is left
unchanged and no snapshot-updated event fires; the snapshot map is
updated and the event fired exactly when extraction succeeds. -/
theorem c6_recompute_failure_preserves (st : IndexerState) (uriKey : String)
    (err : String) (snap : FileStructureSnapshot) :
    (recomputeSnapshotWith st uriKey (Except.error err)).1 = st ∧
    (∀ k, getSnapshot (recomputeSnapshotWith st uriKey (Except.error err)).1 k =
      getSnapshot st k) ∧
    (recomputeSnapshotWith st uriKey (Except.error err)).2.1 = [] ∧
    (recomputeSnapshotWith st uriKey (Except.error err)).2.2 =
      ["[CodeStructureService] Failed to compute snapshot"] ∧
    getSnapshot (recomputeSnapshotWith st uriKey (Except.ok snap)).1 uriKey = some snap ∧
    (recomputeSnapshotWith st uriKey (Except.ok snap)).2.1 = [uriKey] := by
  refine ⟨rfl, fun k => rfl, rfl, rfl, ?_, rfl⟩
  simp [recomputeSnapshotWith, getSnapshot]

/-! ## Claim C4 -/

/-- Claim C4 counterexample: a supported document longer than the size
ceiling is still recomputed by the structure indexer — `getSnapshot`
returns a snapshot for it, contradicting the claim that the indexer
skips oversized documents and produces no snapshot. -/
theorem c4_counterexample :
    (List.replicate 200001 'x').length > MAX_FILE_LENGTH_FOR_SCAN ∧
    (getSnapshot
      (recomputeSnapshot initialIndexerState "file:///big.ts" 1 "typescript"
        (List.replicate 200001 'x') 0).1 "file:///big.ts").isSome = true := by
  constructor
  · simp only [MAX_FILE_LENGTH_FOR_SCAN, List.length_replicate, gt_iff_lt]
    omega
  · rfl

/-- Claim C4 as amended: the size ceiling lives in the call-graph
builder, not the structure indexer.  For every document longer than
`MAX_FILE_LENGTH_FOR_SCAN`, `rebuildForUri` leaves the graph state
unchanged, fires no event and logs a soft skip (no error), while the
structure indexer recomputes and stores a snapshot regardless of size. -/
theorem c4_size_ceiling (gst : GraphState) (ist : IndexerState) (uriKey : String)
    (snap : FileStructureSnapshot) (text : List Char) (version : Nat)
    (languageId : String) (now : Nat)
    (h : text.length > MAX_FILE_LENGTH_FOR_SCAN) :
    rebuildForUri gst uriKey (some snap) (some text) =
      (gst, [], ["[CodeGraphService] Skipping graph rebuild for large file"]) ∧
    getSnapshot (recomputeSnapshot ist uriKey version languageId text now).1 uriKey =
      some (buildSnapshot uriKey version languageId text now) := by
  constructor
  · simp [rebuildForUri, h]
  · simp [recomputeSnapshot, recomputeSnapshotWith, getSnapshot]

theorem c4_size_ceiling_witness :
    rebuildForUri initialGraphState "file:///big.ts"
      (some (buildSnapshot "file:///big.ts" 1 "typescript" (List.replicate 200001 'x') 0))
      (some (List.replicate 200001 'x')) =
      (initialGraphState, [], ["[CodeGraphService] Skipping graph rebuild for large file"]) :=
  (c4_size_ceiling initialGraphState initialIndexerState "file:///big.ts"
    (buildSnapshot "file:///big.ts" 1 "typescript" (List.replicate 200001 'x') 0)
    (List.replicate 200001 'x') 1 "typescript" 0
    (by simp only [MAX_FILE_LENGTH_FOR_SCAN, List.length_replicate, gt_iff_lt]; omega)).1

/-! ## Claim C8 -/

/-- Claim C8 counterexample: after a tracked document is removed, its
edges are still returned by `getEdgesForFile` — the call-graph builder
registers no removal listener and does not drop the file's graph state,
contradicting the claim. -/
theorem c8_counterexample :
    (getEdgesForFile
      (documentRemoved initialIndexerState
        (rebuildForUri initialGraphState "file:///t.ts"
          (some (buildSnapshot "file:///t.ts" 1 "typescript"
            "function a(){ b(); }\nfunction b(){}".data 0))
          (some "function a(){ b(); }\nfunction b(){}".data)).1
        initialHistoryState "file:///t.ts").2.1
      "file:///t.ts") ≠ [] := by
  decide

/-- Claim C8 as amended: when a tracked document is removed, the
structure indexer drops the file's snapshot and its (cancelled)
scheduler entry, the history recorder clears only the remembered last
snapshot while the recorded events are retained and still returned by
`getEventsForFile` — but the call-graph builder's state is left entirely
unchanged, so the file's edges continue to appear in `getEdgesForFile`,
`getCallers` and `getCallees` until a later rebuild. -/
theorem c8_document_removed (ist : IndexerState) (gst : GraphState)
    (hst : HistoryState) (uriKey : String) :
    getSnapshot (documentRemoved ist gst hst uriKey).1 uriKey = none ∧
    (documentRemoved ist gst hst uriKey).1.schedulers uriKey = none ∧
    (documentRemoved ist gst hst uriKey).2.1 = gst ∧
    getEventsForFile (documentRemoved ist gst hst uriKey).2.2 uriKey =
      getEventsForFile hst uriKey ∧
    ((documentRemoved ist gst hst uriKey).2.2.perFile uriKey).bind
      PerFileHistory.lastSnapshot = none := by
  refine ⟨?_, ?_, rfl, ?_, ?_⟩
  · simp [documentRemoved, indexerOnWillDispose, indexerOnModelRemoved, getSnapshot]
  · simp [documentRemoved, indexerOnWillDispose, indexerOnModelRemoved]
  · simp only [documentRemoved, historyOnModelRemoved, getEventsForFile]
    cases h : hst.perFile uriKey <;> simp [h]
  · simp only [documentRemoved, historyOnModelRemoved]
    cases h : hst.perFile uriKey <;> simp [h]

/-! ## Claim C3 -/

/-- The containment invariant of the scanning loop: while scanning, if a
current enclosing class is recorded then a Class symbol with that id and
an earlier end line exists among the already-emitted symbols; hence
every emitted symbol carrying a `containerId` is a Method whose
container is a Class symbol of the full output ending strictly above the
Method's start line. -/
@[simp]
theorem scanLines_nil (uri : String) (n : Nat) (cls : Option String) :
    scanLines uri [] n cls = [] := rfl

theorem scanLines_cons (uri : String) (line : List Char) (rest : List (List Char))
    (n : Nat) (cls : Option String) :
    scanLines uri (line :: rest) n cls =
      match execClassRegex line with
      | some nm =>
        classSymbol uri line nm n
          :: scanLines uri rest (n + 1) (some (classSymbol uri line nm n).id)
      | none =>
        match execFunctionRegex line with
        | some nm => functionSymbol uri line nm n :: scanLines uri rest (n + 1) cls
        | none =>
          match execMethodRegex line, cls with
          | some nm, some cid => methodSymbol uri line nm n cid :: scanLines uri rest (n + 1) cls
          | _, _ =>
            if line.all isSpaceChar then scanLines uri rest (n + 1) none
            else scanLines uri rest (n + 1) cls := rfl

theorem scanLines_containerId (uri : String) (ls : List (List Char)) (n : Nat)
    (cls : Option String) :
    ∀ (pre : List SymbolNodeLite),
    (∀ cid, cls = some cid → ∃ c ∈ pre, c.id = cid ∧ c.kind = CodeSymbolKind.Class ∧
      c.range.endLineNumber < n) →
    ∀ sym ∈ scanLines uri ls n cls, ∀ cid, sym.containerId = some cid →
      sym.kind = CodeSymbolKind.Method ∧
      ∃ c ∈ pre ++ scanLines uri ls n cls, c.id = cid ∧ c.kind = CodeSymbolKind.Class ∧
        c.range.endLineNumber < sym.range.startLineNumber := by
  induction ls, n, cls using scanLines.induct uri with
  | case1 n cls =>
    intro pre _ sym hsym
    simp at hsym
  | case2 line rest n cls nm hc ih =>
    intro pre hcls sym hsym cid hcid
    rw [scanLines_cons] at hsym ⊢
    simp only [hc, List.mem_cons] at hsym ⊢
    rcases hsym with rfl | hsym
    · simp [classSymbol] at hcid
    · have := ih (pre ++ [classSymbol uri line nm n])
        (by
          intro cid' hcid'
          rw [Option.some.injEq] at hcid'
          refine ⟨classSymbol uri line nm n,
            List.mem_append_right _ (List.mem_singleton_self _), hcid', rfl, ?_⟩
          simp [classSymbol])
        sym hsym cid hcid
      refine ⟨this.1, ?_⟩
      obtain ⟨c, hcmem, hrest⟩ := this.2
      rw [List.append_assoc, List.singleton_append] at hcmem
      exact ⟨c, hcmem, hrest⟩
  | case3 line rest n cls hc nm hf ih =>
    intro pre hcls sym hsym cid hcid
    rw [scanLines_cons] at hsym ⊢
    simp only [hc, hf, List.mem_cons] at hsym ⊢
    rcases hsym with rfl | hsym
    · simp [functionSymbol] at hcid
    · have := ih pre
        (by
          intro cid' h
          obtain ⟨c, hcmem, h1, h2, h3⟩ := hcls cid' h
          exact ⟨c, hcmem, h1, h2, Nat.lt_succ_of_lt h3⟩)
        sym hsym cid hcid
      refine ⟨this.1, ?_⟩
      obtain ⟨c, hcmem, hrest⟩ := this.2
      rw [List.mem_append] at hcmem
      refine ⟨c, List.mem_append.mpr ?_, hrest⟩
      rcases hcmem with hl | hr
      · exact Or.inl hl
      · exact Or.inr (List.mem_cons_of_mem _ hr)
  | case4 line rest n hc hf nm cid0 hm ih =>
    intro pre hcls sym hsym cid hcid
    rw [scanLines_cons] at hsym ⊢
    simp only [hc, hf, hm, List.mem_cons] at hsym ⊢
    rcases hsym with rfl | hsym
    · simp only [methodSymbol, Option.some.injEq] at hcid
      obtain ⟨c, hcmem, h1, h2, h3⟩ := hcls cid0 rfl
      refine ⟨rfl, c, List.mem_append_left _ hcmem, by rw [h1, hcid], h2, ?_⟩
      simpa [methodSymbol] using h3
    · have := ih pre
        (by
          intro cid' h
          rw [Option.some.injEq] at h
          obtain ⟨c, hcmem, h1, h2, h3⟩ := hcls cid0 rfl
          exact ⟨c, hcmem, by rw [← h, h1], h2, Nat.lt_succ_of_lt h3⟩)
        sym hsym cid hcid
      refine ⟨this.1, ?_⟩
      obtain ⟨c, hcmem, hrest⟩ := this.2
      rw [List.mem_append] at hcmem
      refine ⟨c, List.mem_append.mpr ?_, hrest⟩
      rcases hcmem with hl | hr
      · exact Or.inl hl
      · exact Or.inr (List.mem_cons_of_mem _ hr)
  | case5 line rest n cls hc hf hblank hnm ih =>
    intro pre hcls sym hsym cid hcid
    rw [scanLines_cons] at hsym ⊢
    cases hm : execMethodRegex line with
    | some nm =>
      cases cls with
      | some curId => exact (hnm nm curId hm rfl).elim
      | none =>
        simp only [hc, hf, hm, hblank, if_true] at hsym ⊢
        exact ih pre (by simp) sym hsym cid hcid
    | none =>
      simp only [hc, hf, hm, hblank, if_true] at hsym ⊢
      exact ih pre (by simp) sym hsym cid hcid
  | case6 line rest n cls hc hf hblank hnm ih =>
    intro pre hcls sym hsym cid hcid
    rw [scanLines_cons] at hsym ⊢
    have hb : line.all isSpaceChar = false := by
      cases hb : line.all isSpaceChar
      · rfl
      · exact absurd hb hblank
    cases hm : execMethodRegex line with
    | some nm =>
      cases cls with
      | some curId => exact (hnm nm curId hm rfl).elim
      | none =>
        simp only [hc, hf, hm, hb, Bool.false_eq_true, if_false] at hsym ⊢
        exact ih pre (by simp) sym hsym cid hcid
    | none =>
      cases cls with
      | some curId =>
        simp only [hc, hf, hm, hb, Bool.false_eq_true, if_false] at hsym ⊢
        exact ih pre
          (by
            intro cid' h
            rw [Option.some.injEq] at h
            obtain ⟨c, hcmem, h1, h2, h3⟩ := hcls curId rfl
            exact ⟨c, hcmem, by rw [← h, h1], h2, Nat.lt_succ_of_lt h3⟩)
          sym hsym cid hcid
      | none =>
        simp only [hc, hf, hm, hb, Bool.false_eq_true, if_false] at hsym ⊢
        exact ih pre (by simp) sym hsym cid hcid

/-- Claim C3 counterexample: in the snapshot of
`"class Foo \x7b\n  bar() \x7b\x7d\n\x7d"`, the Method symbol `bar` has
`containerId` set to the Class symbol `Foo`'s id, yet its range (the
name span on line 2) is not contained in `Foo`'s range (the name span on
line 1), contradicting the claimed containment invariant. -/
theorem c3_counterexample :
    ∃ sym ∈ (buildSnapshot "file:///t.ts" 1 "typescript"
        "class Foo \x7b\n  bar() \x7b\x7d\n\x7d".data 0).symbols,
      ∃ c ∈ (buildSnapshot "file:///t.ts" 1 "typescript"
        "class Foo \x7b\n  bar() \x7b\x7d\n\x7d".data 0).symbols,
        sym.containerId = some c.id ∧ ¬ rangeContainedIn sym.range c.range := by
  decide

/-- Claim C3 as amended: in every snapshot, every symbol with a set
`containerId` is a Method whose container id names a Class symbol of the
same snapshot; that container's range ends on a strictly earlier line
than the Method's range begins (both ranges span only the declaration
name), so the Method's range is never contained in its container's
range. -/
theorem c3_container_relation (uri : String) (version : Nat) (languageId : String)
    (text : List Char) (now : Nat) :
    ∀ sym ∈ (buildSnapshot uri version languageId text now).symbols,
    ∀ cid, sym.containerId = some cid →
      sym.kind = CodeSymbolKind.Method ∧
      ∃ c ∈ (buildSnapshot uri version languageId text now).symbols,
        c.id = cid ∧ c.kind = CodeSymbolKind.Class ∧
        c.range.endLineNumber < sym.range.startLineNumber ∧
        ¬ rangeContainedIn sym.range c.range := by
  intro sym hsym cid hcid
  have hsyms : (buildSnapshot uri version languageId text now).symbols
      = fileSymbolOf uri (splitLines text) :: scanLines uri (splitLines text) 1 none := rfl
  rw [hsyms] at hsym ⊢
  rcases List.mem_cons.mp hsym with rfl | hsym'
  · simp [fileSymbolOf] at hcid
  · have := scanLines_containerId uri (splitLines text) 1 none [] (by simp) sym hsym' cid hcid
    refine ⟨this.1, ?_⟩
    obtain ⟨c, hcmem, h1, h2, h3⟩ := this.2
    rw [List.nil_append] at hcmem
    refine ⟨c, List.mem_cons_of_mem _ hcmem, h1, h2, h3, ?_⟩
    intro hcontain
    have h5 := hcontain.1.2.1
    simp only at h5
    omega

theorem c3_container_relation_witness :
    (methodSymbol "file:///t.ts" "  bar() {}".data "bar".data 2
        "file:///t.ts::Foo@1").kind = CodeSymbolKind.Method ∧
    ∃ c ∈ (buildSnapshot "file:///t.ts" 1 "typescript"
        "class Foo \x7b\n  bar() \x7b\x7d\n\x7d".data 0).symbols,
      c.id = "file:///t.ts::Foo@1" ∧ c.kind = CodeSymbolKind.Class ∧
      c.range.endLineNumber <
        (methodSymbol "file:///t.ts" "  bar() {}".data "bar".data 2
          "file:///t.ts::Foo@1").range.startLineNumber ∧
      ¬ rangeContainedIn
        (methodSymbol "file:///t.ts" "  bar() {}".data "bar".data 2
          "file:///t.ts::Foo@1").range c.range :=
  c3_container_relation "file:///t.ts" 1 "typescript"
    "class Foo \x7b\n  bar() \x7b\x7d\n\x7d".data 0
    (methodSymbol "file:///t.ts" "  bar() {}".data "bar".data 2 "file:///t.ts::Foo@1")
    (by decide) "file:///t.ts::Foo@1" (by decide)

/-! ## Association-map lemmas for the history diff -/

theorem assocGet_assocSet {β : Type} (m : List (String × β)) (k k' : String) (v : β) :
    assocGet (assocSet m k v) k' = if k' = k then some v else assocGet m k' := by
  induction m with
  | nil =>
    simp only [assocSet, assocGet]
    by_cases h : k' = k
    · simp [h]
    · rw [if_neg (fun hh => h hh.symm), if_neg h]
  | cons kv rest ih =>
    obtain ⟨k0, v0⟩ := kv
    simp only [assocSet]
    by_cases h0 : k0 = k
    · subst h0
      by_cases h : k0 = k'
      · simp [assocGet, h]
      · have h' : ¬ k' = k0 := fun hh => h hh.symm
        simp [assocGet, h, h']
    · simp only [if_neg h0, assocGet, ih]
      split_ifs <;> simp_all

theorem assocGet_isSome_iff_mem_keys {β : Type} (m : List (String × β)) (k : String) :
    (assocGet m k).isSome = true ↔ k ∈ m.map Prod.fst := by
  induction m with
  | nil => simp [assocGet]
  | cons kv rest ih =>
    obtain ⟨k0, v0⟩ := kv
    simp only [assocGet, List.map_cons, List.mem_cons]
    split_ifs with h
    · simp [h]
    · have h' : ¬ k = k0 := fun hh => h hh.symm
      rw [ih]
      simp [h']

theorem assocSet_keys {β : Type} (m : List (String × β)) (k : String) (v : β) :
    (assocSet m k v).map Prod.fst =
      if k ∈ m.map Prod.fst then m.map Prod.fst else m.map Prod.fst ++ [k] := by
  induction m with
  | nil => simp [assocSet]
  | cons kv rest ih =>
    obtain ⟨k0, v0⟩ := kv
    simp only [assocSet, List.map_cons, List.mem_cons]
    by_cases h0 : k0 = k
    · subst h0
      simp
    · have hne : ¬ k = k0 := fun h => h0 h.symm
      simp only [if_neg h0, List.map_cons, ih]
      split_ifs with h1 h2 h3 <;> simp_all

theorem assocSet_keys_nodup {β : Type} (m : List (String × β)) (k : String) (v : β)
    (h : (m.map Prod.fst).Nodup) : ((assocSet m k v).map Prod.fst).Nodup := by
  rw [assocSet_keys]
  split_ifs with h1
  · exact h
  · rw [List.nodup_append]
    refine ⟨h, List.nodup_singleton _, fun a ha hk => ?_⟩
    rw [List.mem_singleton] at hk
    subst hk
    exact h1 ha

theorem idNameMap_foldl_get (symbols : List SymbolNodeLite) :
    ∀ (acc : List (String × String)) (id : String),
    (assocGet (symbols.foldl (fun m s => assocSet m s.id s.name) acc) id).isSome = true ↔
      (assocGet acc id).isSome = true ∨ ∃ s ∈ symbols, s.id = id := by
  induction symbols with
  | nil => simp
  | cons s rest ih =>
    intro acc id
    simp only [List.foldl_cons, ih, assocGet_assocSet, List.mem_cons]
    split_ifs with h
    · subst h
      constructor
      · intro _
        exact Or.inr ⟨s, Or.inl rfl, rfl⟩
      · intro _
        exact Or.inl (by simp)
    · constructor
      · rintro (hl | ⟨t, ht, hid⟩)
        · exact Or.inl hl
        · exact Or.inr ⟨t, Or.inr ht, hid⟩
      · rintro (hl | ⟨t, rfl | ht, hid⟩)
        · exact Or.inl hl
        · exact absurd hid.symm h
        · exact Or.inr ⟨t, ht, hid⟩

theorem idNameMap_get_isSome (symbols : List SymbolNodeLite) (id : String) :
    (assocGet (idNameMap symbols) id).isSome = true ↔ ∃ s ∈ symbols, s.id = id := by
  rw [idNameMap, idNameMap_foldl_get]
  simp [assocGet]

theorem idNameMap_nodup (symbols : List SymbolNodeLite) :
    ((idNameMap symbols).map Prod.fst).Nodup := by
  rw [idNameMap]
  have : ∀ (acc : List (String × String)), (acc.map Prod.fst).Nodup →
      ((symbols.foldl (fun m s => assocSet m s.id s.name) acc).map Prod.fst).Nodup := by
    induction symbols with
    | nil => intro acc h; simpa using h
    | cons s rest ih =>
      intro acc h
      exact ih _ (assocSet_keys_nodup _ _ _ h)
  exact this [] (by simp)

/-! ## Diff pass lemmas -/

theorem diffRemovedPass_append (u : String) (now : Nat) (ref : SnapshotRef)
    (nextM : List (String × String)) :
    ∀ (l : List (String × String)) (ctr : Nat) (acc : List CodeHistoryEvent),
    (diffRemovedPass u now ref nextM l ctr acc).1 =
      acc ++ (diffRemovedPass u now ref nextM l ctr []).1 := by
  intro l
  induction l with
  | nil => intro ctr acc; simp [diffRemovedPass]
  | cons kv rest ih =>
    intro ctr acc
    obtain ⟨k, v⟩ := kv
    simp only [diffRemovedPass]
    split_ifs with h
    · exact ih ctr acc
    · rw [ih (ctr + 1) (acc ++ [_]), ih (ctr + 1) ([] ++ [_])]
      simp

theorem diffAddedChangedPass_append (u : String) (now : Nat) (ref : SnapshotRef)
    (prevM : List (String × String)) :
    ∀ (l : List (String × String)) (ctr : Nat) (acc : List CodeHistoryEvent),
    (diffAddedChangedPass u now ref prevM l ctr acc).1 =
      acc ++ (diffAddedChangedPass u now ref prevM l ctr []).1 := by
  intro l
  induction l with
  | nil => intro ctr acc; simp [diffAddedChangedPass]
  | cons kv rest ih =>
    intro ctr acc
    obtain ⟨k, v⟩ := kv
    simp only [diffAddedChangedPass]
    cases hp : assocGet prevM k with
    | none =>
      dsimp only
      rw [ih (ctr + 1) (acc ++ [_]), ih (ctr + 1) ([] ++ [_])]
      simp
    | some pn =>
      dsimp only
      split_ifs with h
      · rw [ih (ctr + 1) (acc ++ [_]), ih (ctr + 1) ([] ++ [_])]
        simp
      · exact ih ctr acc

theorem diffRemovedPass_shape (u : String) (now : Nat) (ref : SnapshotRef)
    (nextM : List (String × String)) :
    ∀ (l : List (String × String)) (ctr : Nat),
    ∀ e ∈ (diffRemovedPass u now ref nextM l ctr []).1,
      e.kind = HistoryEventKind.SymbolRemoved ∧ e.snapshot = ref := by
  intro l
  induction l with
  | nil => intro ctr e he; simp [diffRemovedPass] at he
  | cons kv rest ih =>
    intro ctr e he
    obtain ⟨k, v⟩ := kv
    simp only [diffRemovedPass] at he
    split_ifs at he with h
    · exact ih ctr e he
    · rw [diffRemovedPass_append, List.nil_append] at he
      rcases List.mem_cons.mp he with rfl | he'
      · exact ⟨rfl, rfl⟩
      · exact ih (ctr + 1) e he'

theorem diffAddedChangedPass_shape (u : String) (now : Nat) (ref : SnapshotRef)
    (prevM : List (String × String)) :
    ∀ (l : List (String × String)) (ctr : Nat),
    ∀ e ∈ (diffAddedChangedPass u now ref prevM l ctr []).1,
      (e.kind = HistoryEventKind.SymbolAdded ∨ e.kind = HistoryEventKind.SymbolChanged) ∧
      e.snapshot = ref := by
  intro l
  induction l with
  | nil => intro ctr e he; simp [diffAddedChangedPass] at he
  | cons kv rest ih =>
    intro ctr e he
    obtain ⟨k, v⟩ := kv
    simp only [diffAddedChangedPass] at he
    split at he
    · rw [diffAddedChangedPass_append, List.nil_append] at he
      rcases List.mem_cons.mp he with rfl | he'
      · exact ⟨Or.inl rfl, rfl⟩
      · exact ih (ctr + 1) e he'
    · split_ifs at he with h
      · rw [diffAddedChangedPass_append, List.nil_append] at he
        rcases List.mem_cons.mp he with rfl | he'
        · exact ⟨Or.inr rfl, rfl⟩
        · exact ih (ctr + 1) e he'
      · exact ih ctr e he

theorem ite_cond_congr {P Q : Prop} [Decidable P] [Decidable Q] (h : P ↔ Q) (a b : Nat) :
    (if P then a else b) = (if Q then a else b) := if_congr h rfl rfl

theorem mem_keys_cons_ne {β : Type} (k : String) (v : β) (rest : List (String × β))
    (id : String) (h : ¬ id = k) :
    id ∈ ((k, v) :: rest).map Prod.fst ↔ id ∈ rest.map Prod.fst := by
  simp [h]

theorem assocGet_eq_none_of_not_mem {β : Type} (m : List (String × β)) (id : String)
    (h : id ∉ m.map Prod.fst) : assocGet m id = none := by
  cases hr : assocGet m id with
  | none => rfl
  | some x => exact absurd ((assocGet_isSome_iff_mem_keys m id).mp (by rw [hr]; rfl)) h

theorem diffRemovedPass_count (u : String) (now : Nat) (ref : SnapshotRef)
    (nextM : List (String × String)) (id : String) :
    ∀ (l : List (String × String)) (ctr : Nat), (l.map Prod.fst).Nodup →
    ((diffRemovedPass u now ref nextM l ctr []).1).countP
        (fun e => decide (e.kind = HistoryEventKind.SymbolRemoved ∧ e.symbolId = some id)) =
      if id ∈ l.map Prod.fst ∧ (assocGet nextM id).isSome = false then 1 else 0 := by
  intro l
  induction l with
  | nil => intro ctr _; simp [diffRemovedPass]
  | cons kv rest ih =>
    intro ctr hnd
    obtain ⟨k, v⟩ := kv
    rw [List.map_cons] at hnd
    have hk : k ∉ rest.map Prod.fst := (List.nodup_cons.mp hnd).1
    have hnd' : (rest.map Prod.fst).Nodup := (List.nodup_cons.mp hnd).2
    simp only [diffRemovedPass]
    by_cases h : (assocGet nextM k).isSome = true
    · rw [if_pos h, ih ctr hnd']
      by_cases hid : id = k
      · subst hid
        have hc1 : ¬(id ∈ rest.map Prod.fst ∧ (assocGet nextM id).isSome = false) :=
          fun hh => hk hh.1
        have hc2 : ¬(id ∈ ((id, v) :: rest).map Prod.fst ∧
            (assocGet nextM id).isSome = false) := by
          rintro ⟨-, hc⟩
          rw [h] at hc
          exact Bool.noConfusion hc
        rw [if_neg hc1, if_neg hc2]
      · exact (ite_cond_congr (and_congr_left' (mem_keys_cons_ne k v rest id hid)) 1 0).symm
    · rw [if_neg h, diffRemovedPass_append, List.nil_append, List.singleton_append,
        List.countP_cons, ih (ctr + 1) hnd']
      by_cases hid : id = k
      · subst hid
        have hpe : (decide ((createEvent ctr u (some id) HistoryEventKind.SymbolRemoved ("Removed symbol " ++ v) now ref).kind = HistoryEventKind.SymbolRemoved ∧
            (createEvent ctr u (some id) HistoryEventKind.SymbolRemoved ("Removed symbol " ++ v) now ref).symbolId = some id)) = true := by
          simp [createEvent]
        have hsf : (assocGet nextM id).isSome = false := by
          cases hb : (assocGet nextM id).isSome
          · rfl
          · exact absurd hb h
        have hc1 : ¬(id ∈ rest.map Prod.fst ∧ (assocGet nextM id).isSome = false) :=
          fun hh => hk hh.1
        rw [hpe, if_pos rfl, if_neg hc1, if_pos ⟨by simp, hsf⟩]
      · have hpe : (decide ((createEvent ctr u (some k) HistoryEventKind.SymbolRemoved ("Removed symbol " ++ v) now ref).kind = HistoryEventKind.SymbolRemoved ∧
            (createEvent ctr u (some k) HistoryEventKind.SymbolRemoved ("Removed symbol " ++ v) now ref).symbolId = some id)) = false := by
          rw [decide_eq_false_iff_not]
          rintro ⟨-, hh⟩
          exact hid (Option.some.inj hh).symm
        rw [hpe, if_neg Bool.false_ne_true, Nat.add_zero]
        exact (ite_cond_congr (and_congr_left' (mem_keys_cons_ne k v rest id hid)) 1 0).symm

theorem diffAddedChangedPass_count_added (u : String) (now : Nat) (ref : SnapshotRef)
    (prevM : List (String × String)) (id : String) :
    ∀ (l : List (String × String)) (ctr : Nat), (l.map Prod.fst).Nodup →
    ((diffAddedChangedPass u now ref prevM l ctr []).1).countP
        (fun e => decide (e.kind = HistoryEventKind.SymbolAdded ∧ e.symbolId = some id)) =
      if id ∈ l.map Prod.fst ∧ assocGet prevM id = none then 1 else 0 := by
  intro l
  induction l with
  | nil => intro ctr _; simp [diffAddedChangedPass]
  | cons kv rest ih =>
    intro ctr hnd
    obtain ⟨k, v⟩ := kv
    rw [List.map_cons] at hnd
    have hk : k ∉ rest.map Prod.fst := (List.nodup_cons.mp hnd).1
    have hnd' : (rest.map Prod.fst).Nodup := (List.nodup_cons.mp hnd).2
    simp only [diffAddedChangedPass]
    cases hp : assocGet prevM k with
    | none =>
      dsimp only
      rw [diffAddedChangedPass_append, List.nil_append, List.singleton_append,
        List.countP_cons, ih (ctr + 1) hnd']
      by_cases hid : id = k
      · subst hid
        have hpe : (decide ((createEvent ctr u (some id) HistoryEventKind.SymbolAdded ("Added symbol " ++ v) now ref).kind = HistoryEventKind.SymbolAdded ∧
            (createEvent ctr u (some id) HistoryEventKind.SymbolAdded ("Added symbol " ++ v) now ref).symbolId = some id)) = true := by
          simp [createEvent]
        have hc1 : ¬(id ∈ rest.map Prod.fst ∧ assocGet prevM id = none) :=
          fun hh => hk hh.1
        rw [hpe, if_pos rfl, if_neg hc1, if_pos ⟨by simp, hp⟩]
      · have hpe : (decide ((createEvent ctr u (some k) HistoryEventKind.SymbolAdded ("Added symbol " ++ v) now ref).kind = HistoryEventKind.SymbolAdded ∧
            (createEvent ctr u (some k) HistoryEventKind.SymbolAdded ("Added symbol " ++ v) now ref).symbolId = some id)) = false := by
          rw [decide_eq_false_iff_not]
          rintro ⟨-, hh⟩
          exact hid (Option.some.inj hh).symm
        rw [hpe, if_neg Bool.false_ne_true, Nat.add_zero]
        exact (ite_cond_congr (and_congr_left' (mem_keys_cons_ne k v rest id hid)) 1 0).symm
    | some pn =>
      dsimp only
      have hcount : ((if pn ≠ v then
            diffAddedChangedPass u now ref prevM rest (ctr + 1)
              ([] ++ [createEvent ctr u (some k) HistoryEventKind.SymbolChanged
                ("Renamed symbol " ++ pn ++ " -> " ++ v) now ref])
          else diffAddedChangedPass u now ref prevM rest ctr [])).1.countP
          (fun e => decide (e.kind = HistoryEventKind.SymbolAdded ∧ e.symbolId = some id)) =
          ((diffAddedChangedPass u now ref prevM rest
            (if pn ≠ v then ctr + 1 else ctr) []).1).countP
          (fun e => decide (e.kind = HistoryEventKind.SymbolAdded ∧ e.symbolId = some id)) := by
        split_ifs with hv
        · rw [diffAddedChangedPass_append, List.nil_append, List.singleton_append,
            List.countP_cons]
          have hpe : (decide ((createEvent ctr u (some k) HistoryEventKind.SymbolChanged ("Renamed symbol " ++ pn ++ " -> " ++ v) now ref).kind = HistoryEventKind.SymbolAdded ∧
              (createEvent ctr u (some k) HistoryEventKind.SymbolChanged ("Renamed symbol " ++ pn ++ " -> " ++ v) now ref).symbolId = some id)) = false := by
            rw [decide_eq_false_iff_not]
            rintro ⟨hh, -⟩
            exact HistoryEventKind.noConfusion hh
          rw [hpe, if_neg Bool.false_ne_true, Nat.add_zero]
        · rfl
      rw [hcount, ih _ hnd']
      by_cases hid : id = k
      · subst hid
        have hc1 : ¬(id ∈ rest.map Prod.fst ∧ assocGet prevM id = none) :=
          fun hh => hk hh.1
        have hc2 : ¬(id ∈ ((id, v) :: rest).map Prod.fst ∧ assocGet prevM id = none) := by
          rintro ⟨-, hc⟩
          rw [hp] at hc
          exact Option.noConfusion hc
        rw [if_neg hc1, if_neg hc2]
      · exact (ite_cond_congr (and_congr_left' (mem_keys_cons_ne k v rest id hid)) 1 0).symm

theorem diffAddedChangedPass_count_changed (u : String) (now : Nat) (ref : SnapshotRef)
    (prevM : List (String × String)) (id : String) :
    ∀ (l : List (String × String)) (ctr : Nat), (l.map Prod.fst).Nodup →
    ((diffAddedChangedPass u now ref prevM l ctr []).1).countP
        (fun e => decide (e.kind = HistoryEventKind.SymbolChanged ∧ e.symbolId = some id)) =
      (match assocGet l id, assocGet prevM id with
       | some nn, some pn => if pn ≠ nn then 1 else 0
       | _, _ => 0) := by
  intro l
  induction l with
  | nil => intro ctr _; simp [diffAddedChangedPass, assocGet]
  | cons kv rest ih =>
    intro ctr hnd
    obtain ⟨k, v⟩ := kv
    rw [List.map_cons] at hnd
    have hk : k ∉ rest.map Prod.fst := (List.nodup_cons.mp hnd).1
    have hnd' : (rest.map Prod.fst).Nodup := (List.nodup_cons.mp hnd).2
    simp only [diffAddedChangedPass]
    cases hp : assocGet prevM k with
    | none =>
      dsimp only
      rw [diffAddedChangedPass_append, List.nil_append, List.singleton_append,
        List.countP_cons, ih (ctr + 1) hnd']
      have hpe : (decide ((createEvent ctr u (some k) HistoryEventKind.SymbolAdded ("Added symbol " ++ v) now ref).kind = HistoryEventKind.SymbolChanged ∧
          (createEvent ctr u (some k) HistoryEventKind.SymbolAdded ("Added symbol " ++ v) now ref).symbolId = some id)) = false := by
        rw [decide_eq_false_iff_not]
        rintro ⟨hh, -⟩
        exact HistoryEventKind.noConfusion hh
      rw [hpe, if_neg Bool.false_ne_true, Nat.add_zero]
      by_cases hid : id = k
      · subst hid
        rw [assocGet_eq_none_of_not_mem rest id hk]
        have hgc : assocGet ((id, v) :: rest) id = some v := by
          simp [assocGet]
        rw [hgc, hp]
      · have hid' : ¬ k = id := fun hh => hid hh.symm
        have hgc : assocGet ((k, v) :: rest) id = assocGet rest id := by
          simp [assocGet, hid']
        rw [hgc]
    | some pn =>
      dsimp only
      by_cases hv : pn ≠ v
      · rw [if_pos hv, diffAddedChangedPass_append, List.nil_append, List.singleton_append,
          List.countP_cons, ih (ctr + 1) hnd']
        by_cases hid : id = k
        · subst hid
          have hpe : (decide ((createEvent ctr u (some id) HistoryEventKind.SymbolChanged ("Renamed symbol " ++ pn ++ " -> " ++ v) now ref).kind = HistoryEventKind.SymbolChanged ∧
              (createEvent ctr u (some id) HistoryEventKind.SymbolChanged ("Renamed symbol " ++ pn ++ " -> " ++ v) now ref).symbolId = some id)) = true := by
            simp [createEvent]
          have hgc : assocGet ((id, v) :: rest) id = some v := by
            simp [assocGet]
          rw [hpe, if_pos rfl, assocGet_eq_none_of_not_mem rest id hk, hgc, hp]
          simp [hv]
        · have hpe : (decide ((createEvent ctr u (some k) HistoryEventKind.SymbolChanged ("Renamed symbol " ++ pn ++ " -> " ++ v) now ref).kind = HistoryEventKind.SymbolChanged ∧
              (createEvent ctr u (some k) HistoryEventKind.SymbolChanged ("Renamed symbol " ++ pn ++ " -> " ++ v) now ref).symbolId = some id)) = false := by
            rw [decide_eq_false_iff_not]
            rintro ⟨-, hh⟩
            exact hid (Option.some.inj hh).symm
          have hid' : ¬ k = id := fun hh => hid hh.symm
          have hgc : assocGet ((k, v) :: rest) id = assocGet rest id := by
            simp [assocGet, hid']
          rw [hpe, if_neg Bool.false_ne_true, Nat.add_zero, hgc]
      · rw [if_neg hv, ih ctr hnd']
        by_cases hid : id = k
        · subst hid
          have hgc : assocGet ((id, v) :: rest) id = some v := by
            simp [assocGet]
          rw [assocGet_eq_none_of_not_mem rest id hk, hgc, hp]
          simp [hv]
        · have hid' : ¬ k = id := fun hh => hid hh.symm
          have hgc : assocGet ((k, v) :: rest) id = assocGet rest id := by
            simp [assocGet, hid']
          rw [hgc]

/-! ## Claim C5 -/

/-- Claim C5: one diff pass over a remembered previous snapshot and a
new snapshot emits exactly one `SymbolRemoved` per id present in the
previous snapshot and absent in the next, one `SymbolAdded` per id
present in the next and absent in the previous, and one `SymbolChanged`
per id present in both whose recorded name differs; all removals precede
the additions/changes; every emitted event's snapshot reference is the
next snapshot's (uri, version); and with no remembered previous
snapshot the pass emits no events and leaves the stored event log
unchanged. -/
theorem c5_diff_pass (previous next : FileStructureSnapshot) (counter now : Nat)
    (id : String) (st : HistoryState) (uriKey : String) (snap : FileStructureSnapshot) :
    (((computeDiffEvents previous next counter now).1).countP
        (fun e => decide (e.kind = HistoryEventKind.SymbolRemoved ∧ e.symbolId = some id)) =
      if (∃ s ∈ previous.symbols, s.id = id) ∧ ¬ (∃ s ∈ next.symbols, s.id = id)
      then 1 else 0) ∧
    (((computeDiffEvents previous next counter now).1).countP
        (fun e => decide (e.kind = HistoryEventKind.SymbolAdded ∧ e.symbolId = some id)) =
      if (∃ s ∈ next.symbols, s.id = id) ∧ ¬ (∃ s ∈ previous.symbols, s.id = id)
      then 1 else 0) ∧
    (((computeDiffEvents previous next counter now).1).countP
        (fun e => decide (e.kind = HistoryEventKind.SymbolChanged ∧ e.symbolId = some id)) =
      (match assocGet (idNameMap next.symbols) id, assocGet (idNameMap previous.symbols) id with
       | some nn, some pn => if pn ≠ nn then 1 else 0
       | _, _ => 0)) ∧
    (∃ re ac, (computeDiffEvents previous next counter now).1 = re ++ ac ∧
      (∀ e ∈ re, e.kind = HistoryEventKind.SymbolRemoved) ∧
      (∀ e ∈ ac, e.kind = HistoryEventKind.SymbolAdded ∨
        e.kind = HistoryEventKind.SymbolChanged)) ∧
    (∀ e ∈ (computeDiffEvents previous next counter now).1,
      e.snapshot = ⟨next.uri, next.version⟩) ∧
    ((st.perFile uriKey).bind PerFileHistory.lastSnapshot = none →
      (historyOnSnapshotUpdated st uriKey true (some snap) now).2 = [] ∧
      getEventsForFile (historyOnSnapshotUpdated st uriKey true (some snap) now).1 uriKey =
        getEventsForFile st uriKey) := by
  have hsplit : (computeDiffEvents previous next counter now).1 =
      (diffRemovedPass next.uri now ⟨next.uri, next.version⟩ (idNameMap next.symbols)
        (idNameMap previous.symbols) counter []).1 ++
      (diffAddedChangedPass next.uri now ⟨next.uri, next.version⟩ (idNameMap previous.symbols)
        (idNameMap next.symbols)
        (diffRemovedPass next.uri now ⟨next.uri, next.version⟩ (idNameMap next.symbols)
          (idNameMap previous.symbols) counter []).2 []).1 :=
    diffAddedChangedPass_append next.uri now ⟨next.uri, next.version⟩
      (idNameMap previous.symbols) (idNameMap next.symbols) _ _
  have hprev : id ∈ (idNameMap previous.symbols).map Prod.fst ↔
      ∃ s ∈ previous.symbols, s.id = id := by
    rw [← assocGet_isSome_iff_mem_keys, idNameMap_get_isSome]
  have hnextk : id ∈ (idNameMap next.symbols).map Prod.fst ↔
      ∃ s ∈ next.symbols, s.id = id := by
    rw [← assocGet_isSome_iff_mem_keys, idNameMap_get_isSome]
  have hnextf : ((assocGet (idNameMap next.symbols) id).isSome = false) ↔
      ¬ (∃ s ∈ next.symbols, s.id = id) := by
    rw [← idNameMap_get_isSome]
    cases (assocGet (idNameMap next.symbols) id).isSome <;> simp
  have hprevn : (assocGet (idNameMap previous.symbols) id = none) ↔
      ¬ (∃ s ∈ previous.symbols, s.id = id) := by
    rw [← idNameMap_get_isSome]
    cases hg : assocGet (idNameMap previous.symbols) id <;> simp
  refine ⟨?_, ?_, ?_, ?_, ?_, ?_⟩
  · rw [hsplit, List.countP_append]
    have hz : ((diffAddedChangedPass next.uri now ⟨next.uri, next.version⟩
        (idNameMap previous.symbols) (idNameMap next.symbols)
        (diffRemovedPass next.uri now ⟨next.uri, next.version⟩ (idNameMap next.symbols)
          (idNameMap previous.symbols) counter []).2 []).1).countP
        (fun e => decide (e.kind = HistoryEventKind.SymbolRemoved ∧
          e.symbolId = some id)) = 0 := by
      rw [List.countP_eq_zero]
      intro e he
      have := (diffAddedChangedPass_shape _ _ _ _ _ _ e he).1
      simp only [decide_eq_true_eq]
      rintro ⟨hkind, -⟩
      rcases this with h1 | h1 <;> rw [hkind] at h1 <;> exact HistoryEventKind.noConfusion h1
    rw [hz, Nat.add_zero,
      diffRemovedPass_count _ _ _ _ _ _ _ (idNameMap_nodup previous.symbols)]
    exact ite_cond_congr (and_congr hprev hnextf) 1 0
  · rw [hsplit, List.countP_append]
    have hz : ((diffRemovedPass next.uri now ⟨next.uri, next.version⟩
        (idNameMap next.symbols) (idNameMap previous.symbols) counter []).1).countP
        (fun e => decide (e.kind = HistoryEventKind.SymbolAdded ∧
          e.symbolId = some id)) = 0 := by
      rw [List.countP_eq_zero]
      intro e he
      have := (diffRemovedPass_shape _ _ _ _ _ _ e he).1
      simp only [decide_eq_true_eq]
      rintro ⟨hkind, -⟩
      rw [hkind] at this
      exact HistoryEventKind.noConfusion this
    rw [hz, Nat.zero_add,
      diffAddedChangedPass_count_added _ _ _ _ _ _ _ (idNameMap_nodup next.symbols)]
    exact ite_cond_congr (and_congr hnextk hprevn) 1 0
  · rw [hsplit, List.countP_append]
    have hz : ((diffRemovedPass next.uri now ⟨next.uri, next.version⟩
        (idNameMap next.symbols) (idNameMap previous.symbols) counter []).1).countP
        (fun e => decide (e.kind = HistoryEventKind.SymbolChanged ∧
          e.symbolId = some id)) = 0 := by
      rw [List.countP_eq_zero]
      intro e he
      have := (diffRemovedPass_shape _ _ _ _ _ _ e he).1
      simp only [decide_eq_true_eq]
      rintro ⟨hkind, -⟩
      rw [hkind] at this
      exact HistoryEventKind.noConfusion this
    rw [hz, Nat.zero_add,
      diffAddedChangedPass_count_changed _ _ _ _ _ _ _ (idNameMap_nodup next.symbols)]
  · refine ⟨_, _, hsplit, ?_, ?_⟩
    · intro e he
      exact (diffRemovedPass_shape _ _ _ _ _ _ e he).1
    · intro e he
      exact (diffAddedChangedPass_shape _ _ _ _ _ _ e he).1
  · intro e he
    rw [hsplit] at he
    rcases List.mem_append.mp he with he' | he'
    · exact (diffRemovedPass_shape _ _ _ _ _ _ e he').2
    · exact (diffAddedChangedPass_shape _ _ _ _ _ _ e he').2
  · intro hbase
    cases hpf : st.perFile uriKey with
    | none =>
      constructor
      · simp [historyOnSnapshotUpdated, hpf]
      · simp [historyOnSnapshotUpdated, hpf, getEventsForFile, setAt]
    | some h0 =>
      have hlast : h0.lastSnapshot = none := by
        rw [hpf] at hbase
        simpa using hbase
      constructor
      · simp [historyOnSnapshotUpdated, hpf, hlast]
      · simp [historyOnSnapshotUpdated, hpf, hlast, getEventsForFile, setAt]

theorem c5_diff_pass_witness :
    (historyOnSnapshotUpdated initialHistoryState "u" true
      (some (buildSnapshot "u" 1 "typescript" "function a(){}".data 0)) 0).2 = [] ∧
    getEventsForFile (historyOnSnapshotUpdated initialHistoryState "u" true
      (some (buildSnapshot "u" 1 "typescript" "function a(){}".data 0)) 0).1 "u" =
      getEventsForFile initialHistoryState "u" :=
  (c5_diff_pass (buildSnapshot "u" 1 "typescript" "function a(){}".data 0)
    (buildSnapshot "u" 2 "typescript" "function a2(){}".data 0) 1 0 "u::a@1"
    initialHistoryState "u"
    (buildSnapshot "u" 1 "typescript" "function a(){}".data 0)).2.2.2.2.2
    (by simp [initialHistoryState])

/-! ## Claim C2: graph index consistency -/

/-- An edge recorded in some file's stored edge set. -/
def storedEdge (st : GraphState) (e : GraphEdge) : Prop :=
  ∃ k l, st.fileGraphs k = some l ∧ e ∈ l

/-- Well-formedness of the caller/callee indexes: every indexed edge
sits in the bucket of its own endpoint and belongs to some file's
stored edge set. -/
def GraphInv (st : GraphState) : Prop :=
  (∀ id e, e ∈ st.outgoingEdges id → e.from_ = id ∧ storedEdge st e) ∧
  (∀ id e, e ∈ st.incomingEdges id → e.to_ = id ∧ storedEdge st e)

theorem removeEdges_fileGraphs (st : GraphState) (edges : List GraphEdge) :
    (removeEdges st edges).fileGraphs = st.fileGraphs := by
  induction edges generalizing st with
  | nil => rfl
  | cons e rest ih => rw [removeEdges]; exact ih _

theorem removeEdges_subset_out (st : GraphState) (edges : List GraphEdge) (id : String) :
    ∀ x ∈ (removeEdges st edges).outgoingEdges id, x ∈ st.outgoingEdges id := by
  induction edges generalizing st with
  | nil => intro x hx; exact hx
  | cons e rest ih =>
    intro x hx
    have := ih _ x hx
    simp only [setAt] at this
    split_ifs at this with h
    · rw [h]
      exact List.mem_of_mem_filter this
    · exact this

theorem removeEdges_subset_in (st : GraphState) (edges : List GraphEdge) (id : String) :
    ∀ x ∈ (removeEdges st edges).incomingEdges id, x ∈ st.incomingEdges id := by
  induction edges generalizing st with
  | nil => intro x hx; exact hx
  | cons e rest ih =>
    intro x hx
    have := ih _ x hx
    simp only [setAt] at this
    split_ifs at this with h
    · rw [h]
      exact List.mem_of_mem_filter this
    · exact this

theorem removeEdges_removes (st : GraphState) (edges : List GraphEdge) :
    ∀ e ∈ edges, e ∉ (removeEdges st edges).outgoingEdges e.from_ ∧
      e ∉ (removeEdges st edges).incomingEdges e.to_ := by
  induction edges generalizing st with
  | nil => intro e he; simp at he
  | cons x rest ih =>
    intro e he
    rcases List.mem_cons.mp he with rfl | he'
    · rw [removeEdges]
      constructor
      · intro hmem
        have := removeEdges_subset_out _ rest e.from_ e hmem
        simp only [setAt_self] at this
        rcases List.mem_filter.mp this with ⟨-, hne⟩
        simp at hne
      · intro hmem
        have := removeEdges_subset_in _ rest e.to_ e hmem
        simp only [setAt_self] at this
        rcases List.mem_filter.mp this with ⟨-, hne⟩
        simp at hne
    · rw [removeEdges]
      exact ih _ e he'

theorem addEdges_fileGraphs (st : GraphState) (edges : List GraphEdge) :
    (addEdges st edges).fileGraphs = st.fileGraphs := by
  induction edges generalizing st with
  | nil => rfl
  | cons e rest ih => rw [addEdges]; exact ih _

theorem addEdges_out_mem (st : GraphState) (edges : List GraphEdge) (id : String) :
    ∀ x, x ∈ (addEdges st edges).outgoingEdges id ↔
      x ∈ st.outgoingEdges id ∨ (x ∈ edges ∧ x.from_ = id) := by
  induction edges generalizing st with
  | nil => intro x; simp [addEdges]
  | cons e rest ih =>
    intro x
    rw [addEdges, ih]
    simp only [setAt]
    split_ifs with h
    · subst h
      simp only [List.mem_append, List.mem_cons, List.not_mem_nil, or_false]
      constructor
      · rintro ((hx | rfl) | ⟨hr, hf⟩)
        · exact Or.inl hx
        · exact Or.inr ⟨Or.inl rfl, rfl⟩
        · exact Or.inr ⟨Or.inr hr, hf⟩
      · rintro (hx | ⟨rfl | hr, hf⟩)
        · exact Or.inl (Or.inl hx)
        · exact Or.inl (Or.inr rfl)
        · exact Or.inr ⟨hr, hf⟩
    · simp only [List.mem_cons]
      constructor
      · rintro (hx | ⟨hr, hf⟩)
        · exact Or.inl hx
        · exact Or.inr ⟨Or.inr hr, hf⟩
      · rintro (hx | ⟨rfl | hr, hf⟩)
        · exact Or.inl hx
        · exact absurd hf.symm h
        · exact Or.inr ⟨hr, hf⟩

theorem addEdges_in_mem (st : GraphState) (edges : List GraphEdge) (id : String) :
    ∀ x, x ∈ (addEdges st edges).incomingEdges id ↔
      x ∈ st.incomingEdges id ∨ (x ∈ edges ∧ x.to_ = id) := by
  induction edges generalizing st with
  | nil => intro x; simp [addEdges]
  | cons e rest ih =>
    intro x
    rw [addEdges, ih]
    simp only [setAt]
    split_ifs with h
    · subst h
      simp only [List.mem_append, List.mem_cons, List.not_mem_nil, or_false]
      constructor
      · rintro ((hx | rfl) | ⟨hr, hf⟩)
        · exact Or.inl hx
        · exact Or.inr ⟨Or.inl rfl, rfl⟩
        · exact Or.inr ⟨Or.inr hr, hf⟩
      · rintro (hx | ⟨rfl | hr, hf⟩)
        · exact Or.inl (Or.inl hx)
        · exact Or.inl (Or.inr rfl)
        · exact Or.inr ⟨hr, hf⟩
    · simp only [List.mem_cons]
      constructor
      · rintro (hx | ⟨hr, hf⟩)
        · exact Or.inl hx
        · exact Or.inr ⟨Or.inr hr, hf⟩
      · rintro (hx | ⟨rfl | hr, hf⟩)
        · exact Or.inl hx
        · exact absurd hf.symm h
        · exact Or.inr ⟨hr, hf⟩

theorem symbolToFile_fold_fixed (st : GraphState) (symbols : List SymbolNodeLite)
    (uriKey : String) :
    (symbols.foldl (fun s sym =>
      { s with symbolToFile := setAt s.symbolToFile sym.id (some uriKey) }) st).fileGraphs =
        st.fileGraphs ∧
    (symbols.foldl (fun s sym =>
      { s with symbolToFile := setAt s.symbolToFile sym.id (some uriKey) }) st).outgoingEdges =
        st.outgoingEdges ∧
    (symbols.foldl (fun s sym =>
      { s with symbolToFile := setAt s.symbolToFile sym.id (some uriKey) }) st).incomingEdges =
        st.incomingEdges := by
  induction symbols generalizing st with
  | nil => exact ⟨rfl, rfl, rfl⟩
  | cons s rest ih =>
    rw [List.foldl_cons]
    exact ih _

/-- The store-index-announce tail of `rebuildForUri` (after the old edge
set has been removed): record the fresh edge set for the file, index it,
and refresh `symbolToFile`. -/
def rebuildCore (st1 : GraphState) (uriKey : String) (newEdges : List GraphEdge)
    (symbols : List SymbolNodeLite) : GraphState :=
  symbols.foldl
    (fun s sym => { s with symbolToFile := setAt s.symbolToFile sym.id (some uriKey) })
    (addEdges { st1 with fileGraphs := setAt st1.fileGraphs uriKey (some newEdges) } newEdges)

theorem rebuildForUri_eq (st : GraphState) (uriKey : String)
    (snap : FileStructureSnapshot) (text : List Char)
    (hlen : ¬ text.length > MAX_FILE_LENGTH_FOR_SCAN) :
    rebuildForUri st uriKey (some snap) (some text) =
      (rebuildCore
        (match st.fileGraphs uriKey with
         | some oldEdges => removeEdges st oldEdges
         | none => st)
        uriKey (computeIntraFileCallEdges snap text) snap.symbols, [uriKey], []) := by
  rw [rebuildForUri, if_neg hlen]
  rfl

theorem rebuildCore_fileGraphs (st1 : GraphState) (uriKey : String)
    (newEdges : List GraphEdge) (symbols : List SymbolNodeLite) :
    (rebuildCore st1 uriKey newEdges symbols).fileGraphs =
      setAt st1.fileGraphs uriKey (some newEdges) := by
  rw [rebuildCore, (symbolToFile_fold_fixed _ _ _).1, addEdges_fileGraphs]

theorem rebuildCore_out (st1 : GraphState) (uriKey : String)
    (newEdges : List GraphEdge) (symbols : List SymbolNodeLite) (id : String)
    (x : GraphEdge) :
    x ∈ (rebuildCore st1 uriKey newEdges symbols).outgoingEdges id ↔
      x ∈ st1.outgoingEdges id ∨ (x ∈ newEdges ∧ x.from_ = id) := by
  rw [rebuildCore, (symbolToFile_fold_fixed _ _ _).2.1, addEdges_out_mem]

theorem rebuildCore_in (st1 : GraphState) (uriKey : String)
    (newEdges : List GraphEdge) (symbols : List SymbolNodeLite) (id : String)
    (x : GraphEdge) :
    x ∈ (rebuildCore st1 uriKey newEdges symbols).incomingEdges id ↔
      x ∈ st1.incomingEdges id ∨ (x ∈ newEdges ∧ x.to_ = id) := by
  rw [rebuildCore, (symbolToFile_fold_fixed _ _ _).2.2, addEdges_in_mem]

theorem rebuildCore_spec (st st1 : GraphState) (uriKey : String)
    (newEdges : List GraphEdge) (symbols : List SymbolNodeLite)
    (hfg : st1.fileGraphs = st.fileGraphs)
    (hsubO : ∀ id x, x ∈ st1.outgoingEdges id → x ∈ st.outgoingEdges id)
    (hsubI : ∀ id x, x ∈ st1.incomingEdges id → x ∈ st.incomingEdges id)
    (hclean : ∀ l, st.fileGraphs uriKey = some l → ∀ x ∈ l,
      x ∉ st1.outgoingEdges x.from_ ∧ x ∉ st1.incomingEdges x.to_)
    (hinv : GraphInv st) :
    GraphInv (rebuildCore st1 uriKey newEdges symbols) ∧
    (rebuildCore st1 uriKey newEdges symbols).fileGraphs uriKey = some newEdges ∧
    (∀ g, g ≠ uriKey →
      (rebuildCore st1 uriKey newEdges symbols).fileGraphs g = st.fileGraphs g) ∧
    (∀ l, st.fileGraphs uriKey = some l → ∀ e ∈ l, e ∉ newEdges → ∀ id,
      e ∉ (rebuildCore st1 uriKey newEdges symbols).outgoingEdges id ∧
      e ∉ (rebuildCore st1 uriKey newEdges symbols).incomingEdges id) := by
  have hfgAll : (rebuildCore st1 uriKey newEdges symbols).fileGraphs =
      setAt st1.fileGraphs uriKey (some newEdges) := rebuildCore_fileGraphs _ _ _ _
  have hAt : (rebuildCore st1 uriKey newEdges symbols).fileGraphs uriKey = some newEdges := by
    rw [hfgAll]; simp
  have hOther : ∀ g, g ≠ uriKey →
      (rebuildCore st1 uriKey newEdges symbols).fileGraphs g = st.fileGraphs g := by
    intro g hg
    rw [hfgAll, setAt_ne _ _ _ _ hg, hfg]
  refine ⟨⟨?_, ?_⟩, hAt, hOther, ?_⟩
  · intro id e he
    rcases (rebuildCore_out _ _ _ _ _ _).mp he with h1 | ⟨hn, hfrom⟩
    · have hst := hinv.1 id e (hsubO id e h1)
      refine ⟨hst.1, ?_⟩
      obtain ⟨k, l, hk, hl⟩ := hst.2
      by_cases hke : k = uriKey
      · subst hke
        exact absurd (hst.1 ▸ h1) ((hclean l hk e hl).1)
      · exact ⟨k, l, by rw [hOther k hke]; exact hk, hl⟩
    · exact ⟨hfrom, uriKey, newEdges, hAt, hn⟩
  · intro id e he
    rcases (rebuildCore_in _ _ _ _ _ _).mp he with h1 | ⟨hn, hto⟩
    · have hst := hinv.2 id e (hsubI id e h1)
      refine ⟨hst.1, ?_⟩
      obtain ⟨k, l, hk, hl⟩ := hst.2
      by_cases hke : k = uriKey
      · subst hke
        exact absurd (hst.1 ▸ h1) ((hclean l hk e hl).2)
      · exact ⟨k, l, by rw [hOther k hke]; exact hk, hl⟩
    · exact ⟨hto, uriKey, newEdges, hAt, hn⟩
  · intro l hl e hel hnot id
    constructor
    · intro hmem
      rcases (rebuildCore_out _ _ _ _ _ _).mp hmem with h1 | ⟨hn, -⟩
      · have hst := hinv.1 id e (hsubO id e h1)
        exact (hclean l hl e hel).1 (hst.1 ▸ h1)
      · exact hnot hn
    · intro hmem
      rcases (rebuildCore_in _ _ _ _ _ _).mp hmem with h1 | ⟨hn, -⟩
      · have hst := hinv.2 id e (hsubI id e h1)
        exact (hclean l hl e hel).2 (hst.1 ▸ h1)
      · exact hnot hn

/-- Claim C2: when a file's snapshot is replaced (and the document is
within the scan ceiling), the builder removes the file's prior edge set
from both indexes, stores and indexes the freshly computed edge set, and
fires the graph-updated event for that file only after the state is
fully updated.  Consequently `getEdgesForFile` returns exactly the
latest pass's edges for the file, other files' stored edge sets are
untouched, the index well-formedness `GraphInv` is preserved (every
indexed edge belongs to some file's current stored edge set), and a
prior-pass edge that is not recomputed no longer appears in
`getCallers`/`getCallees` for any symbol. -/
theorem c2_rebuild_consistency (st : GraphState) (uriKey : String)
    (snap : FileStructureSnapshot) (text : List Char)
    (hinv : GraphInv st) (hlen : ¬ text.length > MAX_FILE_LENGTH_FOR_SCAN) :
    GraphInv (rebuildForUri st uriKey (some snap) (some text)).1 ∧
    getEdgesForFile (rebuildForUri st uriKey (some snap) (some text)).1 uriKey =
      computeIntraFileCallEdges snap text ∧
    (∀ g, g ≠ uriKey →
      (rebuildForUri st uriKey (some snap) (some text)).1.fileGraphs g = st.fileGraphs g) ∧
    (rebuildForUri st uriKey (some snap) (some text)).2.1 = [uriKey] ∧
    (∀ oldEdges, st.fileGraphs uriKey = some oldEdges →
      ∀ e ∈ oldEdges, e ∉ computeIntraFileCallEdges snap text → ∀ id,
        e ∉ getCallers (rebuildForUri st uriKey (some snap) (some text)).1 id ∧
        e ∉ getCallees (rebuildForUri st uriKey (some snap) (some text)).1 id) := by
  rw [rebuildForUri_eq st uriKey snap text hlen]
  cases hold : st.fileGraphs uriKey with
  | none =>
    have hspec := rebuildCore_spec st st uriKey (computeIntraFileCallEdges snap text)
      snap.symbols rfl (fun _ _ h => h) (fun _ _ h => h)
      (fun l hl => by rw [hold] at hl; exact Option.noConfusion hl) hinv
    refine ⟨by simpa [hold] using hspec.1, ?_, ?_, rfl, ?_⟩
    · simp only [hold, getEdgesForFile]
      rw [hspec.2.1]
    · intro g hg
      simpa [hold] using hspec.2.2.1 g hg
    · intro oldEdges holdE
      exact Option.noConfusion holdE
  | some oldEdges =>
    have hclean : ∀ l, st.fileGraphs uriKey = some l → ∀ x ∈ l,
        x ∉ (removeEdges st oldEdges).outgoingEdges x.from_ ∧
        x ∉ (removeEdges st oldEdges).incomingEdges x.to_ := by
      intro l hl x hx
      rw [hold] at hl
      cases hl
      exact removeEdges_removes st oldEdges x hx
    have hspec := rebuildCore_spec st (removeEdges st oldEdges) uriKey
      (computeIntraFileCallEdges snap text) snap.symbols
      (removeEdges_fileGraphs st oldEdges)
      (fun id x h => removeEdges_subset_out st oldEdges id x h)
      (fun id x h => removeEdges_subset_in st oldEdges id x h)
      hclean hinv
    refine ⟨by simpa [hold] using hspec.1, ?_, ?_, rfl, ?_⟩
    · simp only [hold, getEdgesForFile]
      rw [hspec.2.1]
    · intro g hg
      simpa [hold] using hspec.2.2.1 g hg
    · intro oldE holdE e hel hnot id
      injection holdE with hh
      subst hh
      have := hspec.2.2.2 oldEdges hold e hel hnot id
      exact ⟨this.2, this.1⟩

theorem c2_rebuild_consistency_witness :
    (rebuildForUri initialGraphState "file:///t.ts"
      (some (buildSnapshot "file:///t.ts" 1 "typescript"
        "function a(){ b(); }\nfunction b(){}".data 0))
      (some "function a(){ b(); }\nfunction b(){}".data)).2.1 = ["file:///t.ts"] :=
  (c2_rebuild_consistency initialGraphState "file:///t.ts"
    (buildSnapshot "file:///t.ts" 1 "typescript"
      "function a(){ b(); }\nfunction b(){}".data 0)
    "function a(){ b(); }\nfunction b(){}".data
    (by
      constructor <;> intro id e h <;> exact absurd h (List.not_mem_nil e))
    (by decide)).2.2.2.1

/-! ## Claim C1 -/

/-- Claim C1 counterexample: for
`"function a(){ b(); }\nfunction b(){}"` the call-graph pass produces no
Call edge from `a`'s symbol to `b`'s symbol, and `getCallers(b.id)`
returns two edges (from the File symbol and from `b` itself), not
exactly one edge from `a`.  The call site `b()` lies outside `a`'s
name-only range, so it resolves to the File symbol. -/
theorem c1_counterexample :
    (∀ e ∈ computeIntraFileCallEdges
        (buildSnapshot "file:///t.ts" 1 "typescript"
          "function a(){ b(); }\nfunction b(){}".data 0)
        "function a(){ b(); }\nfunction b(){}".data,
      ¬ (e.from_ = "file:///t.ts::a@1" ∧ e.to_ = "file:///t.ts::b@2")) ∧
    getCallers
      (rebuildForUri initialGraphState "file:///t.ts"
        (some (buildSnapshot "file:///t.ts" 1 "typescript"
          "function a(){ b(); }\nfunction b(){}".data 0))
        (some "function a(){ b(); }\nfunction b(){}".data)).1
      "file:///t.ts::b@2" =
      [⟨"file:///t.ts::<file>@1", "file:///t.ts::b@2", GraphEdgeKind.Call⟩,
       ⟨"file:///t.ts::b@2", "file:///t.ts::b@2", GraphEdgeKind.Call⟩] := by
  decide

/-- Claim C1 as amended: for the two-line document
`"function a(){ b(); }\nfunction b(){}"`, the computed edge set is
exactly the self-edge `a→a`, the edge `File→b` (the `b()` call site
resolves to the File symbol because `a`'s range spans only its
declaration name) and the self-edge `b→b`; after the call-graph pass,
`getCallers(b.id)` returns exactly those two edges into `b`, with
`from` the File symbol's id and `b`'s id — no Call edge from `a`'s id to
`b`'s id exists. -/
theorem c1_call_edges :
    computeIntraFileCallEdges
      (buildSnapshot "file:///t.ts" 1 "typescript"
        "function a(){ b(); }\nfunction b(){}".data 0)
      "function a(){ b(); }\nfunction b(){}".data =
      [⟨"file:///t.ts::a@1", "file:///t.ts::a@1", GraphEdgeKind.Call⟩,
       ⟨"file:///t.ts::<file>@1", "file:///t.ts::b@2", GraphEdgeKind.Call⟩,
       ⟨"file:///t.ts::b@2", "file:///t.ts::b@2", GraphEdgeKind.Call⟩] ∧
    getCallers
      (rebuildForUri initialGraphState "file:///t.ts"
        (some (buildSnapshot "file:///t.ts" 1 "typescript"
          "function a(){ b(); }\nfunction b(){}".data 0))
        (some "function a(){ b(); }\nfunction b(){}".data)).1
      "file:///t.ts::b@2" =
      [⟨"file:///t.ts::<file>@1", "file:///t.ts::b@2", GraphEdgeKind.Call⟩,
       ⟨"file:///t.ts::b@2", "file:///t.ts::b@2", GraphEdgeKind.Call⟩] := by
  decide

/-! ## Claim C10: dedup keys and symbol ids

The per-pass dedup set stores string keys `` `${from}->${to}` ``.  On
symbol ids the key map is injective provided the file uri contains no
`>` character: ids then contain no `->` substring (the only `>` inside
an id comes from the `<file>` marker, preceded by `e`) and always end in
a decimal digit. -/

/-- No adjacent `'-', '>'` pair occurs in the character list. -/
def arrowFree : List Char → Bool
  | c1 :: c2 :: rest => !(c1 = '-' && c2 = '>') && arrowFree (c2 :: rest)
  | _ => true

/-- The left component of a dedup key must be `->`-free and must not end
in `'-'` for the key to split uniquely. -/
def GoodKey (s : String) : Prop :=
  arrowFree s.data = true ∧ s.data.getLast? ≠ some '-'

theorem arrowFree_cons_iff (c : Char) (l : List Char) :
    arrowFree (c :: l) = true ↔
      ¬ (c = '-' ∧ l.head? = some '>') ∧ arrowFree l = true := by
  cases l with
  | nil => simp [arrowFree]
  | cons c2 r =>
    rw [arrowFree]
    simp only [Bool.and_eq_true, Bool.not_eq_true', List.head?_cons, Option.some.injEq]
    constructor
    · rintro ⟨h1, h2⟩
      refine ⟨?_, h2⟩
      rintro ⟨rfl, rfl⟩
      simp at h1
    · rintro ⟨h1, h2⟩
      refine ⟨?_, h2⟩
      rw [Bool.and_eq_false_iff]
      by_cases hc : c = '-'
      · right
        rw [decide_eq_false_iff_not]
        intro hh
        exact h1 ⟨hc, hh⟩
      · left
        rw [decide_eq_false_iff_not]
        exact hc

theorem arrowFree_of_no_gt (l : List Char) (h : ∀ c ∈ l, c ≠ '>') :
    arrowFree l = true := by
  induction l with
  | nil => rfl
  | cons c rest ih =>
    rw [arrowFree_cons_iff]
    refine ⟨?_, ih (fun x hx => h x (List.mem_cons_of_mem _ hx))⟩
    rintro ⟨-, hh⟩
    cases rest with
    | nil => simp at hh
    | cons c2 r =>
      rw [List.head?_cons] at hh
      exact h c2 (by simp [Option.some.inj hh]) (Option.some.inj hh)

theorem arrowFree_tail (c : Char) (l : List Char) (h : arrowFree (c :: l) = true) :
    arrowFree l = true := ((arrowFree_cons_iff c l).mp h).2

theorem arrowFree_append (a b : List Char) (ha : arrowFree a = true)
    (hb : arrowFree b = true)
    (hjoin : ¬ (a.getLast? = some '-' ∧ b.head? = some '>')) :
    arrowFree (a ++ b) = true := by
  induction a with
  | nil => simpa using hb
  | cons c a' ih =>
    have hparts := (arrowFree_cons_iff c a').mp ha
    have hjoin' : ¬ (a'.getLast? = some '-' ∧ b.head? = some '>') := by
      rintro ⟨h1, h2⟩
      cases a' with
      | nil => simp at h1
      | cons d a'' =>
        exact hjoin ⟨by rw [List.getLast?_cons_cons]; exact h1, h2⟩
    rw [List.cons_append, arrowFree_cons_iff]
    refine ⟨?_, ih hparts.2 hjoin'⟩
    rintro ⟨rfl, hh⟩
    cases a' with
    | nil =>
      rw [List.nil_append] at hh
      exact hjoin ⟨by simp, hh⟩
    | cons d a'' =>
      rw [List.cons_append, List.head?_cons] at hh
      exact hparts.1 ⟨rfl, by rw [List.head?_cons, hh]⟩

/-- Unique splitting of dedup keys: if both left components are
`->`-free and do not end in `'-'`, equal keys have equal components. -/
theorem append_arrow_inj (f1 : List Char) :
    ∀ (f2 t1 t2 : List Char), arrowFree f1 = true → arrowFree f2 = true →
    f1.getLast? ≠ some '-' → f2.getLast? ≠ some '-' →
    f1 ++ '-' :: '>' :: t1 = f2 ++ '-' :: '>' :: t2 → f1 = f2 ∧ t1 = t2 := by
  induction f1 with
  | nil =>
    intro f2 t1 t2 _ haf2 _ hl2 heq
    rw [List.nil_append] at heq
    cases f2 with
    | nil =>
      rw [List.nil_append] at heq
      injection heq with h1 h2
      injection h2 with h3 h4
      exact ⟨rfl, h4⟩
    | cons c f2' =>
      rw [List.cons_append] at heq
      injection heq with hc htail
      cases f2' with
      | nil =>
        rw [List.nil_append] at htail
        injection htail with hgt
        exact absurd hgt (by decide)
      | cons c2 f2'' =>
        rw [List.cons_append] at htail
        injection htail with hc2
        subst hc
        subst hc2
        rw [arrowFree] at haf2
        simp at haf2
  | cons c1 f1' ih =>
    intro f2 t1 t2 haf1 haf2 hl1 hl2 heq
    cases f2 with
    | nil =>
      rw [List.nil_append, List.cons_append] at heq
      injection heq with hc htail
      cases f1' with
      | nil =>
        rw [List.nil_append] at htail
        injection htail with hgt
        exact absurd hgt.symm (by decide)
      | cons c2 f1'' =>
        rw [List.cons_append] at htail
        injection htail with hc2
        subst hc
        subst hc2
        rw [arrowFree] at haf1
        simp at haf1
    | cons c2 f2' =>
      rw [List.cons_append, List.cons_append] at heq
      injection heq with hc htail
      subst hc
      have hl1' : f1'.getLast? ≠ some '-' := by
        cases f1' with
        | nil => simp
        | cons d a => rw [List.getLast?_cons_cons] at hl1; exact hl1
      have hl2' : f2'.getLast? ≠ some '-' := by
        cases f2' with
        | nil => simp
        | cons d a => rw [List.getLast?_cons_cons] at hl2; exact hl2
      have := ih f2' t1 t2 (arrowFree_tail _ _ haf1) (arrowFree_tail _ _ haf2)
        hl1' hl2' htail
      exact ⟨by rw [this.1], this.2⟩

/-! ### Decimal representations: all digits, never empty -/

theorem digitChar_isDigit (k : Nat) (h : k < 10) : (Nat.digitChar k).isDigit = true := by
  interval_cases k <;> decide

theorem toDigitsCore_digits (fuel : Nat) :
    ∀ (n : Nat) (acc : List Char), (∀ c ∈ acc, c.isDigit = true) →
    ∀ c ∈ Nat.toDigitsCore 10 fuel n acc, c.isDigit = true := by
  induction fuel with
  | zero => intro n acc hacc c hc; exact hacc c hc
  | succ fuel ih =>
    intro n acc hacc c hc
    rw [Nat.toDigitsCore] at hc
    split at hc
    · rcases List.mem_cons.mp hc with rfl | hc'
      · exact digitChar_isDigit _ (Nat.mod_lt _ (by omega))
      · exact hacc c hc'
    · refine ih _ _ ?_ c hc
      intro x hx
      rcases List.mem_cons.mp hx with rfl | hx'
      · exact digitChar_isDigit _ (Nat.mod_lt _ (by omega))
      · exact hacc x hx'

theorem toDigitsCore_ne_nil_of_acc (fuel : Nat) :
    ∀ (n : Nat) (acc : List Char), acc ≠ [] → Nat.toDigitsCore 10 fuel n acc ≠ [] := by
  induction fuel with
  | zero => intro n acc hacc; exact hacc
  | succ fuel ih =>
    intro n acc hacc
    rw [Nat.toDigitsCore]
    split
    · exact List.cons_ne_nil _ _
    · exact ih _ _ (List.cons_ne_nil _ _)

theorem natRepr_facts (n : Nat) :
    (Nat.repr n).data ≠ [] ∧ ∀ c ∈ (Nat.repr n).data, c.isDigit = true := by
  have hdata : (Nat.repr n).data = Nat.toDigits 10 n := rfl
  rw [hdata, Nat.toDigits]
  constructor
  · rw [Nat.toDigitsCore]
    split
    · exact List.cons_ne_nil _ _
    · exact toDigitsCore_ne_nil_of_acc _ _ _ (List.cons_ne_nil _ _)
  · exact toDigitsCore_digits _ _ _ (by simp)

theorem isDigit_facts (c : Char) (h : c.isDigit = true) : c ≠ '>' ∧ c ≠ '-' := by
  rw [Char.isDigit] at h
  simp only [Bool.and_eq_true, decide_eq_true_eq] at h
  constructor <;> rintro rfl <;> simp at h

/-! ### Goodness of symbol ids -/

theorem mem_append_char {a b : List Char} {c : Char} (h : c ∈ a ++ b) :
    c ∈ a ∨ c ∈ b := List.mem_append.mp h

theorem string_append_data (a b : String) : (a ++ b).data = a.data ++ b.data := rfl

theorem getLast_append_of_ne_nil {a b : List Char} (h : b ≠ []) :
    (a ++ b).getLast? = b.getLast? :=
  List.getLast?_append_of_ne_nil a h

theorem getLast?_mem_of_eq {l : List Char} {c : Char} (h : l.getLast? = some c) : c ∈ l := by
  obtain ⟨hne, rfl⟩ := List.mem_getLast?_eq_getLast (l := l) (x := c) h
  exact List.getLast_mem hne

/-- A `buildSymbolId` result whose payload contains no `>` is a good
dedup-key component provided the uri contains no `>`. -/
theorem buildSymbolId_good_of_no_gt (uri payload : String) (n : Nat)
    (huri : ∀ c ∈ uri.data, c ≠ '>') (hpayload : ∀ c ∈ payload.data, c ≠ '>') :
    GoodKey (buildSymbolId uri payload n) ∧
    (∀ c ∈ (buildSymbolId uri payload n).data, c ≠ '>') := by
  have hdata : (buildSymbolId uri payload n).data =
      uri.data ++ "::".data ++ payload.data ++ "@".data ++ (Nat.repr n).data := by
    rw [buildSymbolId]
    rfl
  have hnogt : ∀ c ∈ (buildSymbolId uri payload n).data, c ≠ '>' := by
    rw [hdata]
    intro c hc
    rcases mem_append_char hc with hc1 | hc2
    · rcases mem_append_char hc1 with hc3 | hc4
      · rcases mem_append_char hc3 with hc5 | hc6
        · rcases mem_append_char hc5 with hc7 | hc8
          · exact huri c hc7
          · rintro rfl; simp at hc8
        · exact hpayload c hc6
      · rintro rfl; simp at hc4
    · rintro rfl
      exact absurd ((natRepr_facts n).2 '>' hc2) (by decide)
  refine ⟨⟨arrowFree_of_no_gt _ hnogt, ?_⟩, hnogt⟩
  rw [hdata]
  have hrepr := natRepr_facts n
  rw [List.append_assoc, List.append_assoc, List.append_assoc,
    getLast_append_of_ne_nil (by simp [hrepr.1]),
    getLast_append_of_ne_nil (by simp [hrepr.1]),
    getLast_append_of_ne_nil (by simp [hrepr.1]),
    getLast_append_of_ne_nil hrepr.1]
  intro hlast
  exact absurd ((natRepr_facts n).2 '-' (getLast?_mem_of_eq hlast)) (by decide)

/-- The File symbol's id is a good dedup-key component when the uri
contains no `>`: the `<file>` marker's `>` is preceded by `e`. -/
theorem fileSymbolId_good (uri : String) (huri : ∀ c ∈ uri.data, c ≠ '>') :
    GoodKey (buildSymbolId uri "<file>" 1) := by
  have hdata : (buildSymbolId uri "<file>" 1).data =
      uri.data ++ "::<file>@1".data := by
    rw [buildSymbolId]
    rw [string_append_data, string_append_data, string_append_data, string_append_data]
    rw [List.append_assoc, List.append_assoc, List.append_assoc]
    congr 1
  constructor
  · rw [hdata]
    refine arrowFree_append _ _ (arrowFree_of_no_gt _ huri) (by decide) ?_
    rintro ⟨-, hh⟩
    simp at hh
  · rw [hdata, getLast_append_of_ne_nil (by decide)]
    decide

/-! ### Captured names consist of identifier characters -/

theorem option_orElse_some {α : Type} (a b : Option α) (v : α) (h : (a <|> b) = some v) :
    a = some v ∨ b = some v := by
  cases a
  · right
    simpa using h
  · left
    simpa using h

theorem matchIdent_facts (s nm : List Char) (h : matchIdent s = some nm) :
    nm ≠ [] ∧ ∀ c ∈ nm, isNameChar c = true := by
  rw [matchIdent] at h
  split_ifs at h with h0
  injection h with h1
  subst h1
  exact ⟨h0, fun c hc => List.mem_takeWhile_imp hc⟩

theorem matchNameParen_facts (s nm : List Char) (h : matchNameParen s = some nm) :
    nm ≠ [] ∧ ∀ c ∈ nm, isNameChar c = true := by
  rw [matchNameParen] at h
  cases hm : matchIdent s with
  | none => rw [hm] at h; exact absurd h (by simp)
  | some nm' =>
    rw [hm] at h
    dsimp only at h
    split at h
    · injection h with h1
      exact h1 ▸ matchIdent_facts s nm' hm
    · exact absurd h (by simp)

theorem tryKeyword_facts (kw : List Char) (k : List Char → Option (List Char))
    (P : List Char → Prop) (hk : ∀ s nm, k s = some nm → P nm) :
    ∀ s nm, tryKeyword kw k s = some nm → P nm := by
  intro s nm h
  rw [tryKeyword] at h
  cases hp : parseKeywordWs kw s with
  | none => rw [hp] at h; exact absurd h (by simp)
  | some s' => rw [hp] at h; exact hk s' nm h

theorem execClassRegex_facts (line nm : List Char) (h : execClassRegex line = some nm) :
    nm ≠ [] ∧ ∀ c ∈ nm, isNameChar c = true := by
  rw [execClassRegex] at h
  have h3 : ∀ s nm, tryKeyword "class".data matchIdent s = some nm →
      nm ≠ [] ∧ ∀ c ∈ nm, isNameChar c = true :=
    tryKeyword_facts _ _ _ (fun s nm h => matchIdent_facts s nm h)
  have h2 : ∀ s nm, (tryKeyword "abstract".data
        (fun s => tryKeyword "class".data matchIdent s) s <|>
      tryKeyword "class".data matchIdent s) = some nm →
      nm ≠ [] ∧ ∀ c ∈ nm, isNameChar c = true := by
    intro s nm h
    rcases option_orElse_some _ _ _ h with h' | h'
    · exact tryKeyword_facts _ _ _ h3 s nm h'
    · exact h3 s nm h'
  rcases option_orElse_some _ _ _ h with h' | h'
  · exact tryKeyword_facts _ _ _ h2 _ nm h'
  · exact h2 _ nm h'

theorem execFunctionRegex_facts (line nm : List Char) (h : execFunctionRegex line = some nm) :
    nm ≠ [] ∧ ∀ c ∈ nm, isNameChar c = true := by
  rw [execFunctionRegex] at h
  have h3 : ∀ s nm, tryKeyword "function".data matchIdent s = some nm →
      nm ≠ [] ∧ ∀ c ∈ nm, isNameChar c = true :=
    tryKeyword_facts _ _ _ (fun s nm h => matchIdent_facts s nm h)
  have h2 : ∀ s nm, (tryKeyword "async".data
        (fun s => tryKeyword "function".data matchIdent s) s <|>
      tryKeyword "function".data matchIdent s) = some nm →
      nm ≠ [] ∧ ∀ c ∈ nm, isNameChar c = true := by
    intro s nm h
    rcases option_orElse_some _ _ _ h with h' | h'
    · exact tryKeyword_facts _ _ _ h3 s nm h'
    · exact h3 s nm h'
  rcases option_orElse_some _ _ _ h with h' | h'
  · exact tryKeyword_facts _ _ _ h2 _ nm h'
  · exact h2 _ nm h'

theorem execMethodRegex_facts (line nm : List Char) (h : execMethodRegex line = some nm) :
    nm ≠ [] ∧ ∀ c ∈ nm, isNameChar c = true := by
  rw [execMethodRegex] at h
  have h3 : ∀ s nm, (tryKeyword "async".data matchNameParen s <|> matchNameParen s) = some nm →
      nm ≠ [] ∧ ∀ c ∈ nm, isNameChar c = true := by
    intro s nm h
    rcases option_orElse_some _ _ _ h with h' | h'
    · exact tryKeyword_facts _ _ _ (fun s nm h => matchNameParen_facts s nm h) s nm h'
    · exact matchNameParen_facts s nm h'
  have h2 : ∀ s nm, (tryKeyword "static".data
        (fun s => tryKeyword "async".data matchNameParen s <|> matchNameParen s) s <|>
      (tryKeyword "async".data matchNameParen s <|> matchNameParen s)) = some nm →
      nm ≠ [] ∧ ∀ c ∈ nm, isNameChar c = true := by
    intro s nm h
    rcases option_orElse_some _ _ _ h with h' | h'
    · exact tryKeyword_facts _ _ _ h3 s nm h'
    · exact h3 s nm h'
  rcases option_orElse_some _ _ _ h with h' | h'
  · exact tryKeyword_facts _ _ _ h2 _ nm h'
  rcases option_orElse_some _ _ _ h' with h'' | h''
  · exact tryKeyword_facts _ _ _ h2 _ nm h''
  rcases option_orElse_some _ _ _ h'' with h3' | h3'
  · exact tryKeyword_facts _ _ _ h2 _ nm h3'
  · exact h2 _ nm h3'

/-! ### Character-class separations -/

theorem isNameChar_ne_gt (c : Char) (h : isNameChar c = true) : c ≠ '>' := by
  rintro rfl
  exact absurd h (by decide)

theorem isNameChar_ne_lparen (c : Char) (h : isNameChar c = true) : c ≠ '(' := by
  rintro rfl
  exact absurd h (by decide)

theorem isNameChar_not_space (c : Char) (h : isNameChar c = true) : isSpaceChar c = false := by
  by_contra hns
  rw [Bool.not_eq_false, isSpaceChar] at hns
  simp only [Bool.or_eq_true, decide_eq_true_eq] at hns
  rcases hns with ((((h1 | h1) | h1) | h1) | h1) | h1 <;> subst h1 <;>
    exact absurd h (by decide)

/-! ### Facts about the scanned symbols -/

theorem classSymbol_facts (uri : String) (line nm : List Char) (n : Nat)
    (hu : ∀ c ∈ uri.data, c ≠ '>') (hnm : ∀ c ∈ nm, isNameChar c = true) :
    (classSymbol uri line nm n).range.startLineNumber = n ∧
    (classSymbol uri line nm n).range.endLineNumber = n ∧
    (classSymbol uri line nm n).range.startColumn ≤ (classSymbol uri line nm n).range.endColumn ∧
    (classSymbol uri line nm n).name.data = nm ∧
    GoodKey (classSymbol uri line nm n).id ∧
    (∀ c ∈ (classSymbol uri line nm n).id.data, c ≠ '>') := by
  refine ⟨rfl, rfl, Nat.le_add_right _ _, rfl, ?_⟩
  have := buildSymbolId_good_of_no_gt uri (String.mk nm) n hu
    (fun c hc => isNameChar_ne_gt c (hnm c hc))
  exact this

theorem functionSymbol_facts (uri : String) (line nm : List Char) (n : Nat)
    (hu : ∀ c ∈ uri.data, c ≠ '>') (hnm : ∀ c ∈ nm, isNameChar c = true) :
    (functionSymbol uri line nm n).range.startLineNumber = n ∧
    (functionSymbol uri line nm n).range.endLineNumber = n ∧
    (functionSymbol uri line nm n).range.startColumn ≤
      (functionSymbol uri line nm n).range.endColumn ∧
    (functionSymbol uri line nm n).name.data = nm ∧
    GoodKey (functionSymbol uri line nm n).id ∧
    (∀ c ∈ (functionSymbol uri line nm n).id.data, c ≠ '>') := by
  refine ⟨rfl, rfl, Nat.le_add_right _ _, rfl, ?_⟩
  have := buildSymbolId_good_of_no_gt uri (String.mk nm) n hu
    (fun c hc => isNameChar_ne_gt c (hnm c hc))
  exact this

theorem methodSymbol_facts (uri : String) (line nm : List Char) (n : Nat) (cid : String)
    (hu : ∀ c ∈ uri.data, c ≠ '>') (hnm : ∀ c ∈ nm, isNameChar c = true)
    (hcid : ∀ c ∈ cid.data, c ≠ '>') :
    (methodSymbol uri line nm n cid).range.startLineNumber = n ∧
    (methodSymbol uri line nm n cid).range.endLineNumber = n ∧
    (methodSymbol uri line nm n cid).range.startColumn ≤
      (methodSymbol uri line nm n cid).range.endColumn ∧
    (methodSymbol uri line nm n cid).name.data = nm ∧
    GoodKey (methodSymbol uri line nm n cid).id ∧
    (∀ c ∈ (methodSymbol uri line nm n cid).id.data, c ≠ '>') := by
  refine ⟨rfl, rfl, Nat.le_add_right _ _, rfl, ?_⟩
  have hpayload : ∀ c ∈ (String.mk nm ++ "@" ++ cid).data, c ≠ '>' := by
    intro c hc
    rw [string_append_data, string_append_data] at hc
    rcases mem_append_char hc with hc1 | hc2
    · rcases mem_append_char hc1 with hc3 | hc4
      · exact isNameChar_ne_gt c (hnm c hc3)
      · rintro rfl; simp at hc4
    · exact hcid c hc2
  have := buildSymbolId_good_of_no_gt uri (String.mk nm ++ "@" ++ cid) n hu hpayload
  exact this

/-- Every scanned symbol starts at or after the current line number. -/
theorem scanLines_startLine_ge (uri : String) (ls : List (List Char)) (n : Nat)
    (cls : Option String) :
    ∀ s ∈ scanLines uri ls n cls, n ≤ s.range.startLineNumber := by
  induction ls generalizing n cls with
  | nil => intro s hs; rw [scanLines_nil] at hs; simp at hs
  | cons line rest ih =>
    intro s hs
    rw [scanLines_cons] at hs
    cases hc : execClassRegex line with
    | some nm =>
      rw [hc] at hs
      rcases List.mem_cons.mp hs with rfl | hs'
      · exact Nat.le_refl n
      · exact Nat.le_of_succ_le (ih _ _ s hs')
    | none =>
      rw [hc] at hs
      cases hf : execFunctionRegex line with
      | some nm =>
        rw [hf] at hs
        rcases List.mem_cons.mp hs with rfl | hs'
        · exact Nat.le_refl n
        · exact Nat.le_of_succ_le (ih _ _ s hs')
      | none =>
        rw [hf] at hs
        cases hm : execMethodRegex line with
        | some nm =>
          rw [hm] at hs
          cases cls with
          | some cid =>
            rcases List.mem_cons.mp hs with rfl | hs'
            · exact Nat.le_refl n
            · exact Nat.le_of_succ_le (ih _ _ s hs')
          | none =>
            dsimp only at hs
            split at hs
            · exact Nat.le_of_succ_le (ih _ _ s hs)
            · exact Nat.le_of_succ_le (ih _ _ s hs)
        | none =>
          rw [hm] at hs
          cases cls <;> dsimp only at hs <;> split at hs <;>
            exact Nat.le_of_succ_le (ih _ _ s hs)

/-- Scanned symbols appear in strictly increasing start-line order. -/
theorem scanLines_pairwise (uri : String) (ls : List (List Char)) (n : Nat)
    (cls : Option String) :
    List.Pairwise (fun a b => a.range.startLineNumber < b.range.startLineNumber)
      (scanLines uri ls n cls) := by
  induction ls generalizing n cls with
  | nil => rw [scanLines_nil]; exact List.Pairwise.nil
  | cons line rest ih =>
    rw [scanLines_cons]
    have hcons : ∀ (s : SymbolNodeLite) (cls' : Option String),
        s.range.startLineNumber = n →
        List.Pairwise (fun a b => a.range.startLineNumber < b.range.startLineNumber)
          (s :: scanLines uri rest (n + 1) cls') := by
      intro s cls' hsl
      refine List.pairwise_cons.mpr ⟨?_, ih _ _⟩
      intro b hb
      rw [hsl]
      exact Nat.lt_of_succ_le (scanLines_startLine_ge uri rest (n + 1) cls' b hb)
    cases hc : execClassRegex line with
    | some nm => exact hcons _ _ rfl
    | none =>
      cases hf : execFunctionRegex line with
      | some nm => exact hcons _ _ rfl
      | none =>
        cases hm : execMethodRegex line with
        | some nm =>
          cases cls with
          | some cid => exact hcons _ _ rfl
          | none => dsimp only; split <;> exact ih _ _
        | none =>
          cases cls <;> dsimp only <;> split <;> exact ih _ _

/-- Shape facts for every scanned symbol: a single-line range, an
identifier name, a non-File kind and a good dedup-key id (under a
`>`-free uri; the current-class id is `>`-free along the scan). -/
theorem scanLines_symbol_facts (uri : String) (hu : ∀ c ∈ uri.data, c ≠ '>')
    (ls : List (List Char)) (n : Nat) (cls : Option String)
    (hcls : ∀ cid, cls = some cid → ∀ c ∈ cid.data, c ≠ '>') :
    ∀ s ∈ scanLines uri ls n cls,
      s.range.endLineNumber = s.range.startLineNumber ∧
      s.range.startColumn ≤ s.range.endColumn ∧
      s.kind ≠ CodeSymbolKind.File ∧
      s.name.data ≠ [] ∧ (∀ c ∈ s.name.data, isNameChar c = true) ∧
      GoodKey s.id := by
  induction ls generalizing n cls with
  | nil => intro s hs; rw [scanLines_nil] at hs; simp at hs
  | cons line rest ih =>
    intro s hs
    rw [scanLines_cons] at hs
    cases hc : execClassRegex line with
    | some nm =>
      rw [hc] at hs
      dsimp only at hs
      obtain ⟨hnm0, hnm⟩ := execClassRegex_facts line nm hc
      obtain ⟨h1, h2, h3, h4, h5, h6⟩ := classSymbol_facts uri line nm n hu hnm
      have hgood : ∀ cid, some (classSymbol uri line nm n).id = some cid →
          ∀ c ∈ cid.data, c ≠ '>' := by
        rintro cid hcid c hcmem
        injection hcid with hh
        subst hh
        exact h6 c hcmem
      rcases List.mem_cons.mp hs with rfl | hs'
      · refine ⟨h2.trans h1.symm, h3, ?_, ?_, ?_, h5⟩
        · intro hk; exact absurd hk (by simp [classSymbol])
        · rw [h4]; exact hnm0
        · rw [h4]; exact hnm
      · exact ih _ _ hgood s hs'
    | none =>
      rw [hc] at hs
      cases hf : execFunctionRegex line with
      | some nm =>
        rw [hf] at hs
        dsimp only at hs
        obtain ⟨hnm0, hnm⟩ := execFunctionRegex_facts line nm hf
        obtain ⟨h1, h2, h3, h4, h5, h6⟩ := functionSymbol_facts uri line nm n hu hnm
        rcases List.mem_cons.mp hs with rfl | hs'
        · refine ⟨h2.trans h1.symm, h3, ?_, ?_, ?_, h5⟩
          · intro hk; exact absurd hk (by simp [functionSymbol])
          · rw [h4]; exact hnm0
          · rw [h4]; exact hnm
        · exact ih _ _ hcls s hs'
      | none =>
        rw [hf] at hs
        cases hm : execMethodRegex line with
        | some nm =>
          cases cls with
          | some cid =>
            rw [hm] at hs
            dsimp only at hs
            obtain ⟨hnm0, hnm⟩ := execMethodRegex_facts line nm hm
            obtain ⟨h1, h2, h3, h4, h5, h6⟩ :=
              methodSymbol_facts uri line nm n cid hu hnm (hcls cid rfl)
            rcases List.mem_cons.mp hs with rfl | hs'
            · refine ⟨h2.trans h1.symm, h3, ?_, ?_, ?_, h5⟩
              · intro hk; exact absurd hk (by simp [methodSymbol])
              · rw [h4]; exact hnm0
              · rw [h4]; exact hnm
            · exact ih _ _ hcls s hs'
          | none =>
            rw [hm] at hs
            dsimp only at hs
            split at hs
            · exact ih _ _ (by rintro cid ⟨⟩) s hs
            · exact ih _ _ hcls s hs
        | none =>
          rw [hm] at hs
          cases cls <;> dsimp only at hs <;> split at hs
          · exact ih _ _ (by rintro cid ⟨⟩) s hs
          · exact ih _ _ (by rintro cid ⟨⟩) s hs
          · exact ih _ _ (by rintro cid ⟨⟩) s hs
          · exact ih _ _ hcls s hs

/-! ### Resolving the enclosing symbol at a declaration-name position -/

theorem findContainingSymbol_mem (symbols : List SymbolNodeLite) (pos : LitePosition)
    (s : SymbolNodeLite) (h : findContainingSymbol symbols pos = some s) : s ∈ symbols := by
  induction symbols with
  | nil => exact absurd h (by simp [findContainingSymbol])
  | cons t rest ih =>
    rw [findContainingSymbol] at h
    split at h
    · injection h with hh
      subst hh
      exact List.mem_cons_self _ _
    · exact List.mem_cons_of_mem _ (ih h)

/-- Over a list of single-line symbols on pairwise strictly increasing
lines, the first containing symbol of a position on a member's line is
that member. -/
theorem findContainingSymbol_scanned (scanned : List SymbolNodeLite) (pos : LitePosition)
    (s : SymbolNodeLite)
    (hsingle : ∀ t ∈ scanned, t.range.endLineNumber = t.range.startLineNumber)
    (hkinds : ∀ t ∈ scanned, t.kind ≠ CodeSymbolKind.File)
    (hpw : List.Pairwise (fun a b => a.range.startLineNumber < b.range.startLineNumber) scanned)
    (hs : s ∈ scanned)
    (hline : pos.lineNumber = s.range.startLineNumber)
    (hcont : containsPosition s.range pos = true) :
    findContainingSymbol scanned pos = some s := by
  induction scanned with
  | nil => simp at hs
  | cons t rest ih =>
    rw [findContainingSymbol]
    rcases List.mem_cons.mp hs with rfl | hs'
    · rw [if_pos ⟨hcont, hkinds s (List.mem_cons_self _ _)⟩]
    · rw [if_neg, ih (fun x hx => hsingle x (List.mem_cons_of_mem _ hx))
        (fun x hx => hkinds x (List.mem_cons_of_mem _ hx))
        (List.pairwise_cons.mp hpw).2 hs']
      rintro ⟨hcont', -⟩
      have hspec := (containsPosition_iff t.range pos).mp hcont'
      have hsingle' := hsingle t (List.mem_cons_self _ _)
      have hlt := (List.pairwise_cons.mp hpw).1 s hs'
      simp only [specContainsPosition] at hspec
      obtain ⟨ha, hb, -, -⟩ := hspec
      omega

/-- In a snapshot symbol list (File symbol first, then the scanned
symbols), the enclosing symbol resolved at a scanned symbol's own line
is that symbol. -/
theorem findContainingSymbol_snapshot (f : SymbolNodeLite)
    (hf : f.kind = CodeSymbolKind.File) (scanned : List SymbolNodeLite)
    (pos : LitePosition) (s : SymbolNodeLite)
    (hsingle : ∀ t ∈ scanned, t.range.endLineNumber = t.range.startLineNumber)
    (hkinds : ∀ t ∈ scanned, t.kind ≠ CodeSymbolKind.File)
    (hpw : List.Pairwise (fun a b => a.range.startLineNumber < b.range.startLineNumber) scanned)
    (hs : s ∈ scanned)
    (hline : pos.lineNumber = s.range.startLineNumber)
    (hcont : containsPosition s.range pos = true) :
    findContainingSymbol (f :: scanned) pos = some s := by
  rw [findContainingSymbol, if_neg]
  · exact findContainingSymbol_scanned scanned pos s hsingle hkinds hpw hs hline hcont
  · rintro ⟨-, hk⟩
    exact hk hf

/-- A symbol's range contains its own start position when the range is
confined to one line with ordered columns. -/
theorem containsPosition_start (r : IRange) (hline : r.endLineNumber = r.startLineNumber)
    (hcol : r.startColumn ≤ r.endColumn) :
    containsPosition r ⟨r.startLineNumber, r.startColumn⟩ = true := by
  rw [containsPosition_iff]
  simp only [specContainsPosition]
  refine ⟨Nat.le_refl _, by omega, fun _ => Nat.le_refl _, fun _ => hcol⟩

/-! ### The global scan finds every match position -/

theorem matchCallAt_lt_length (text name : List Char) (i e : Nat) (hname0 : name ≠ [])
    (h : matchCallAt text name i = some e) : i < text.length := by
  rw [matchCallAt] at h
  split_ifs at h with hcond
  by_contra hge
  rw [Nat.not_lt] at hge
  have hdrop : text.drop i = [] := List.drop_eq_nil_of_le hge
  rw [hdrop] at hcond
  exact hname0 (hcond.2.symm.trans (by simp))

theorem parenNext_some (v e : Nat) (l : List Char) (h : parenNext v l = some e) :
    l.head? = some '(' ∧ e = v := by
  unfold parenNext at h
  split at h
  · injection h with hh
    exact ⟨rfl, hh.symm⟩
  · exact absurd h (by simp)

theorem matchCallAt_shape (text name : List Char) (i e : Nat)
    (h : matchCallAt text name i = some e) :
    e = i + name.length + ((text.drop (i + name.length)).takeWhile isSpaceChar).length + 1 ∧
    (∀ j, j < name.length → text.get? (i + j) = name.get? j) ∧
    (∀ j, j < ((text.drop (i + name.length)).takeWhile isSpaceChar).length →
      ∃ c, text.get? (i + name.length + j) = some c ∧ isSpaceChar c = true) ∧
    text.get? (i + name.length +
      ((text.drop (i + name.length)).takeWhile isSpaceChar).length) = some '(' := by
  rw [matchCallAt] at h
  split_ifs at h with hcond
  dsimp only at h
  have hdd : (text.drop i).drop name.length = text.drop (i + name.length) := by
    rw [List.drop_drop, Nat.add_comm]
  rw [hdd] at h
  obtain ⟨hhead, he⟩ := parenNext_some _ _ _ h
  have hw :
      ∀ j, j < ((text.drop (i + name.length)).takeWhile isSpaceChar).length →
        ∃ c, text.get? (i + name.length + j) = some c ∧ isSpaceChar c = true := by
    intro j hj
    obtain ⟨t, ht⟩ := List.takeWhile_prefix
      (l := text.drop (i + name.length)) (p := isSpaceChar)
    have hget : (text.drop (i + name.length)).get? j =
        ((text.drop (i + name.length)).takeWhile isSpaceChar).get? j := by
      conv_lhs => rw [← ht]
      exact List.get?_append hj
    have hget2 : text.get? (i + name.length + j) =
        (text.drop (i + name.length)).get? j := by
      rw [List.get?_drop]
    have hc := List.get?_eq_get
      (l := (text.drop (i + name.length)).takeWhile isSpaceChar) (n := j) hj
    refine ⟨_, by rw [hget2, hget, hc], ?_⟩
    exact List.mem_takeWhile_imp (List.get_mem _ _ _)
  have hparen : text.get? (i + name.length +
      ((text.drop (i + name.length)).takeWhile isSpaceChar).length) = some '(' := by
    have hgoal : text.get? (i + name.length +
        ((text.drop (i + name.length)).takeWhile isSpaceChar).length) =
        ((text.drop (i + name.length)).drop
          ((text.drop (i + name.length)).takeWhile isSpaceChar).length).get? 0 := by
      rw [List.get?_drop, List.get?_drop, Nat.add_zero]
    rw [hgoal, List.get?_zero, hhead]
  refine ⟨he, ?_, hw, hparen⟩
  intro j hj
  have htake := hcond.2
  have hname : name.get? j = ((text.drop i).take name.length).get? j := by rw [htake]
  rw [hname, List.get?_take hj, List.get?_drop]

/-- Two matches of the same identifier-only name never overlap: a later
match starts at or after the end of an earlier one (the consumed span is
name characters, then spaces, then `(`, none of which can start a new
occurrence of the name). -/
theorem matchCallAt_no_overlap (text name : List Char)
    (hname0 : name ≠ []) (hname : ∀ c ∈ name, isNameChar c = true)
    (i p e e' : Nat) (h1 : matchCallAt text name i = some e)
    (h2 : matchCallAt text name p = some e') (hip : i < p) : e ≤ p := by
  obtain ⟨he, htake1, hsp1, hpar1⟩ := matchCallAt_shape text name i e h1
  obtain ⟨-, htake2, -, -⟩ := matchCallAt_shape text name p e' h2
  by_contra hgt
  rw [Nat.not_le] at hgt
  have hocc : ∀ q, p ≤ q → q < p + name.length →
      ∃ c, text.get? q = some c ∧ isNameChar c = true := by
    intro q hq1 hq2
    have hj : q - p < name.length := by omega
    have hq := htake2 (q - p) hj
    have hqe : p + (q - p) = q := by omega
    rw [hqe] at hq
    have hnget := List.get?_eq_get (l := name) (n := q - p) hj
    exact ⟨name.get ⟨q - p, hj⟩, by rw [hq, hnget], hname _ (List.get_mem _ _ _)⟩
  have hlen1 : 1 ≤ name.length := by
    cases name with
    | nil => exact absurd rfl hname0
    | cons _ _ => simp
  by_cases hcase1 : p < i + name.length
  · obtain ⟨c, hc, hcn⟩ := hocc (i + name.length) (by omega) (by omega)
    by_cases hw0 : ((text.drop (i + name.length)).takeWhile isSpaceChar).length = 0
    · rw [hw0, Nat.add_zero] at hpar1
      rw [hpar1] at hc
      injection hc with hh
      subst hh
      exact absurd hcn (by decide)
    · obtain ⟨c', hc', hcs⟩ := hsp1 0 (by omega)
      rw [Nat.add_zero] at hc'
      rw [hc'] at hc
      injection hc with hh
      subst hh
      rw [isNameChar_not_space _ hcn] at hcs
      cases hcs
  · by_cases hcase2 : p < i + name.length +
        ((text.drop (i + name.length)).takeWhile isSpaceChar).length
    · obtain ⟨c', hc', hcs⟩ := hsp1 (p - (i + name.length)) (by omega)
      have hpe : i + name.length + (p - (i + name.length)) = p := by omega
      rw [hpe] at hc'
      obtain ⟨c, hc, hcn⟩ := hocc p (Nat.le_refl _) (by omega)
      rw [hc'] at hc
      injection hc with hh
      subst hh
      rw [isNameChar_not_space _ hcn] at hcs
      cases hcs
    · have hp : p = i + name.length +
          ((text.drop (i + name.length)).takeWhile isSpaceChar).length := by omega
      obtain ⟨c, hc, hcn⟩ := hocc p (Nat.le_refl _) (by omega)
      rw [hp, hpar1] at hc
      injection hc with hh
      subst hh
      exact absurd hcn (by decide)

theorem scanCallsAux_succ (text name : List Char) (fuel i : Nat) :
    scanCallsAux text name (fuel + 1) i =
      if i < text.length then
        match matchCallAt text name i with
        | some e => i :: scanCallsAux text name fuel e
        | none => scanCallsAux text name fuel (i + 1)
      else [] := rfl

/-- With enough fuel, the `regex.exec` loop reaches every position where
the pattern matches. -/
theorem scanCallsAux_complete (text name : List Char)
    (hname0 : name ≠ []) (hname : ∀ c ∈ name, isNameChar c = true)
    (p e' : Nat) (hp : matchCallAt text name p = some e') :
    ∀ fuel i, i ≤ p → text.length + 1 - i ≤ fuel → p ∈ scanCallsAux text name fuel i := by
  have hplen : p < text.length := matchCallAt_lt_length text name p e' hname0 hp
  intro fuel
  induction fuel with
  | zero => intro i hi hfuel; omega
  | succ f ih =>
    intro i hi hfuel
    rw [scanCallsAux_succ]
    have hilt : i < text.length := Nat.lt_of_le_of_lt hi hplen
    rw [if_pos hilt]
    cases hm : matchCallAt text name i with
    | some e =>
      by_cases hip : i = p
      · subst hip
        exact List.mem_cons_self _ _
      · have hlt : i < p := Nat.lt_of_le_of_ne hi hip
        have hle : e ≤ p := matchCallAt_no_overlap text name hname0 hname i p e e' hm hp hlt
        have hei : i < e := by
          obtain ⟨he, -, -, -⟩ := matchCallAt_shape text name i e hm
          omega
        exact List.mem_cons_of_mem _ (ih e hle (by omega))
    | none =>
      have hip : i ≠ p := by
        rintro rfl
        rw [hp] at hm
        cases hm
      exact ih (i + 1) (by omega) (by omega)

/-- The global scan reports every offset at which the call pattern
matches an identifier name. -/
theorem scanCalls_complete (text name : List Char)
    (hname0 : name ≠ []) (hname : ∀ c ∈ name, isNameChar c = true)
    (p e' : Nat) (hp : matchCallAt text name p = some e') :
    p ∈ scanCalls text name := by
  rw [scanCalls]
  exact scanCallsAux_complete text name hname0 hname p e' hp (text.length + 1) 0
    (Nat.zero_le _) (by omega)

/-! ### Grouping callable symbols by name -/

theorem insertByName_self (m : List (String × List SymbolNodeLite)) (k : String)
    (v : SymbolNodeLite) :
    ∃ ts, (k, ts) ∈ insertByName m k v ∧ v ∈ ts := by
  induction m with
  | nil => exact ⟨[v], List.mem_singleton_self _, List.mem_singleton_self _⟩
  | cons kv r ih =>
    obtain ⟨k', l⟩ := kv
    rw [insertByName]
    by_cases hk : k' = k
    · subst hk
      rw [if_pos rfl]
      exact ⟨l ++ [v], List.mem_cons_self _ _,
        List.mem_append_right _ (List.mem_singleton_self _)⟩
    · rw [if_neg hk]
      obtain ⟨ts, h1, h2⟩ := ih
      exact ⟨ts, List.mem_cons_of_mem _ h1, h2⟩

theorem insertByName_mono (m : List (String × List SymbolNodeLite)) (k k' : String)
    (v v' : SymbolNodeLite) (h : ∃ ts, (k, ts) ∈ m ∧ v ∈ ts) :
    ∃ ts', (k, ts') ∈ insertByName m k' v' ∧ v ∈ ts' := by
  induction m with
  | nil =>
    obtain ⟨ts, h1, -⟩ := h
    simp at h1
  | cons kv r ih =>
    obtain ⟨k0, l0⟩ := kv
    rw [insertByName]
    obtain ⟨ts, h1, h2⟩ := h
    by_cases hk : k0 = k'
    · rw [if_pos hk]
      rcases List.mem_cons.mp h1 with heq | hmem
      · injection heq with e1 e2
        subst e1
        subst e2
        exact ⟨ts ++ [v'], List.mem_cons_self _ _, List.mem_append_left _ h2⟩
      · exact ⟨ts, List.mem_cons_of_mem _ hmem, h2⟩
    · rw [if_neg hk]
      rcases List.mem_cons.mp h1 with heq | hmem
      · injection heq with e1 e2
        subst e1
        subst e2
        exact ⟨ts, List.mem_cons_self _ _, h2⟩
      · obtain ⟨ts', h1', h2'⟩ := ih ⟨ts, hmem, h2⟩
        exact ⟨ts', List.mem_cons_of_mem _ h1', h2'⟩

theorem groupByName_aux_mem (s : SymbolNodeLite)
    (hkind : s.kind = CodeSymbolKind.Function ∨ s.kind = CodeSymbolKind.Method) :
    ∀ (l : List SymbolNodeLite) (acc : List (String × List SymbolNodeLite)),
    ((∃ ts, (s.name, ts) ∈ acc ∧ s ∈ ts) ∨ s ∈ l) →
    ∃ ts, (s.name, ts) ∈ l.foldl
        (fun m t =>
          if t.kind = CodeSymbolKind.Function ∨ t.kind = CodeSymbolKind.Method then
            insertByName m t.name t
          else m) acc ∧ s ∈ ts := by
  intro l
  induction l with
  | nil =>
    rintro acc (h | h)
    · exact h
    · simp at h
  | cons t r ih =>
    rintro acc (h | h)
    · rw [List.foldl_cons]
      apply ih
      left
      dsimp only
      by_cases hk : t.kind = CodeSymbolKind.Function ∨ t.kind = CodeSymbolKind.Method
      · rw [if_pos hk]
        exact insertByName_mono _ _ _ _ _ h
      · rw [if_neg hk]
        exact h
    · rcases List.mem_cons.mp h with rfl | h'
      · rw [List.foldl_cons]
        apply ih
        left
        dsimp only
        rw [if_pos hkind]
        exact insertByName_self _ _ _
      · rw [List.foldl_cons]
        exact ih _ (Or.inr h')

/-- Every callable symbol appears among the targets of its own name's
`symbolByName` entry. -/
theorem groupByName_mem (symbols : List SymbolNodeLite) (s : SymbolNodeLite)
    (hs : s ∈ symbols)
    (hkind : s.kind = CodeSymbolKind.Function ∨ s.kind = CodeSymbolKind.Method) :
    ∃ ts, (s.name, ts) ∈ groupByName symbols ∧ s ∈ ts := by
  rw [groupByName]
  exact groupByName_aux_mem s hkind symbols [] (Or.inr hs)

/-! ### The dedup fold: every pushed key is witnessed by a stored edge -/

/-- Invariant of the `(edges, seen)` accumulator: every recorded dedup
key belongs to a stored Call edge whose `from` id is a good key
component. -/
def seenInv (st : List GraphEdge × List String) : Prop :=
  ∀ key ∈ st.2, ∃ e, e ∈ st.1 ∧ e.kind = GraphEdgeKind.Call ∧
    edgeKey e.from_ e.to_ = key ∧ GoodKey e.from_

theorem string_data_inj {a b : String} (h : a.data = b.data) : a = b := by
  cases a
  cases b
  exact congrArg String.mk h

theorem edgeKey_data (a b : String) :
    (edgeKey a b).data = a.data ++ '-' :: '>' :: b.data := by
  rw [edgeKey, string_append_data, string_append_data, List.append_assoc]
  rfl

/-- Dedup keys with good left components split uniquely. -/
theorem edgeKey_inj (f t f' t' : String) (hf : GoodKey f) (hf' : GoodKey f')
    (h : edgeKey f t = edgeKey f' t') : f = f' ∧ t = t' := by
  have h' : f.data ++ '-' :: '>' :: t.data = f'.data ++ '-' :: '>' :: t'.data := by
    rw [← edgeKey_data, ← edgeKey_data, h]
  obtain ⟨h1, h2⟩ := append_arrow_inj f.data f'.data t.data t'.data hf.1 hf'.1 hf.2 hf'.2 h'
  exact ⟨string_data_inj h1, string_data_inj h2⟩

theorem pushEdge_subset (st : List GraphEdge × List String) (f t : String) :
    ∀ x ∈ st.1, x ∈ (pushEdge st f t).1 := by
  intro x hx
  rw [pushEdge]
  split_ifs
  · exact hx
  · exact List.mem_append_left _ hx

theorem pushEdge_seenInv (st : List GraphEdge × List String) (f t : String)
    (hf : GoodKey f) (h : seenInv st) : seenInv (pushEdge st f t) := by
  rw [pushEdge]
  split_ifs with hseen
  · exact h
  · intro key hkey
    rcases List.mem_append.mp hkey with hold | hnew
    · obtain ⟨e, he1, he2, he3, he4⟩ := h key hold
      exact ⟨e, List.mem_append_left _ he1, he2, he3, he4⟩
    · rw [List.mem_singleton] at hnew
      exact ⟨⟨f, t, GraphEdgeKind.Call⟩,
        List.mem_append_right _ (List.mem_singleton_self _), rfl, by rw [hnew], hf⟩

/-- Pushing an edge from an id to itself always leaves that self edge in
the store: either it is pushed now, or the seen key already witnesses an
identical stored edge. -/
theorem pushEdge_self_mem (st : List GraphEdge × List String) (id : String)
    (hg : GoodKey id) (hinv : seenInv st) :
    (⟨id, id, GraphEdgeKind.Call⟩ : GraphEdge) ∈ (pushEdge st id id).1 := by
  rw [pushEdge]
  split_ifs with hseen
  · obtain ⟨e, he1, he2, he3, he4⟩ := hinv _ hseen
    obtain ⟨hfeq, hteq⟩ := edgeKey_inj e.from_ e.to_ id id he4 hg he3
    have he : e = ⟨id, id, GraphEdgeKind.Call⟩ := by
      cases e
      simp_all
    rw [← he]
    exact he1
  · exact List.mem_append_right _ (List.mem_singleton_self _)

theorem foldl_edges_subset {α : Type}
    (step : (List GraphEdge × List String) → α → (List GraphEdge × List String))
    (hsub : ∀ st a, ∀ x ∈ st.1, x ∈ (step st a).1) :
    ∀ (l : List α) (st : List GraphEdge × List String), ∀ x ∈ st.1, x ∈ (l.foldl step st).1 := by
  intro l
  induction l with
  | nil => intro st x hx; exact hx
  | cons a r ih =>
    intro st x hx
    rw [List.foldl_cons]
    exact ih _ x (hsub st a x hx)

theorem foldl_edges_inv {α : Type}
    (step : (List GraphEdge × List String) → α → (List GraphEdge × List String))
    (hinv : ∀ st a, seenInv st → seenInv (step st a)) :
    ∀ (l : List α) (st : List GraphEdge × List String), seenInv st → seenInv (l.foldl step st) := by
  intro l
  induction l with
  | nil => intro st h; exact h
  | cons a r ih =>
    intro st h
    rw [List.foldl_cons]
    exact ih _ (hinv st a h)

theorem foldl_edges_mem {α : Type}
    (step : (List GraphEdge × List String) → α → (List GraphEdge × List String))
    (tgt : GraphEdge) (a0 : α)
    (hsub : ∀ st a, ∀ x ∈ st.1, x ∈ (step st a).1)
    (hinv : ∀ st a, seenInv st → seenInv (step st a))
    (hhit : ∀ st, seenInv st → tgt ∈ (step st a0).1) :
    ∀ (l : List α) (st : List GraphEdge × List String),
      a0 ∈ l → seenInv st → tgt ∈ (l.foldl step st).1 := by
  intro l
  induction l with
  | nil => intro st h; simp at h
  | cons a r ih =>
    intro st hmem hst
    rw [List.foldl_cons]
    rcases List.mem_cons.mp hmem with rfl | hmem'
    · exact foldl_edges_subset step hsub r _ tgt (hhit st hst)
    · exact ih _ hmem' (hinv st a hst)

theorem pushTargets_subset (st : List GraphEdge × List String) (f : String)
    (targets : List SymbolNodeLite) : ∀ x ∈ st.1, x ∈ (pushTargets st f targets).1 := by
  rw [pushTargets]
  exact foldl_edges_subset _ (fun st' t => pushEdge_subset st' f t.id) targets st

theorem pushTargets_seenInv (st : List GraphEdge × List String) (f : String)
    (targets : List SymbolNodeLite) (hf : GoodKey f) (h : seenInv st) :
    seenInv (pushTargets st f targets) := by
  rw [pushTargets]
  exact foldl_edges_inv _ (fun st' t => pushEdge_seenInv st' f t.id hf) targets st h

theorem pushTargets_self_mem (st : List GraphEdge × List String)
    (targets : List SymbolNodeLite) (s : SymbolNodeLite) (hs : s ∈ targets)
    (hg : GoodKey s.id) (hinv : seenInv st) :
    (⟨s.id, s.id, GraphEdgeKind.Call⟩ : GraphEdge) ∈ (pushTargets st s.id targets).1 := by
  rw [pushTargets]
  exact foldl_edges_mem _ _ s (fun st' t => pushEdge_subset st' s.id t.id)
    (fun st' t => pushEdge_seenInv st' s.id t.id hg)
    (fun st' hst' => pushEdge_self_mem st' s.id hg hst') targets st hs hinv

theorem processOffset_subset (symbols : List SymbolNodeLite)
    (fileSymbol : Option SymbolNodeLite) (text : List Char) (targets : List SymbolNodeLite)
    (st : List GraphEdge × List String) (o : Nat) :
    ∀ x ∈ st.1, x ∈ (processOffset symbols fileSymbol text targets st o).1 := by
  intro x hx
  rw [processOffset]
  cases hfind : findContainingSymbol symbols (positionAt text o) with
  | some u => exact pushTargets_subset st u.id targets x hx
  | none =>
    cases fileSymbol with
    | some fs => exact pushTargets_subset st fs.id targets x hx
    | none => exact hx

theorem processOffset_seenInv (symbols : List SymbolNodeLite)
    (fileSymbol : Option SymbolNodeLite) (text : List Char) (targets : List SymbolNodeLite)
    (hsyms : ∀ u ∈ symbols, GoodKey u.id)
    (hfs : ∀ fs, fileSymbol = some fs → GoodKey fs.id)
    (st : List GraphEdge × List String) (o : Nat) (h : seenInv st) :
    seenInv (processOffset symbols fileSymbol text targets st o) := by
  rw [processOffset]
  cases hfind : findContainingSymbol symbols (positionAt text o) with
  | some u =>
    exact pushTargets_seenInv st u.id targets
      (hsyms u (findContainingSymbol_mem symbols (positionAt text o) u hfind)) h
  | none =>
    cases hfsv : fileSymbol with
    | some fs => exact pushTargets_seenInv st fs.id targets (hfs fs hfsv) h
    | none => exact h

theorem processOffset_hit (symbols : List SymbolNodeLite)
    (fileSymbol : Option SymbolNodeLite) (text : List Char) (targets : List SymbolNodeLite)
    (s : SymbolNodeLite) (o : Nat)
    (hfind : findContainingSymbol symbols (positionAt text o) = some s)
    (hs : s ∈ targets) (hg : GoodKey s.id) :
    ∀ st, seenInv st →
      (⟨s.id, s.id, GraphEdgeKind.Call⟩ : GraphEdge) ∈
        (processOffset symbols fileSymbol text targets st o).1 := by
  intro st hst
  rw [processOffset]
  rw [hfind]
  exact pushTargets_self_mem st targets s hs hg hst

theorem processName_subset (symbols : List SymbolNodeLite)
    (fileSymbol : Option SymbolNodeLite) (text : List Char)
    (st : List GraphEdge × List String) (entry : String × List SymbolNodeLite) :
    ∀ x ∈ st.1, x ∈ (processName symbols fileSymbol text st entry).1 := by
  intro x hx
  rw [processName]
  exact foldl_edges_subset _
    (fun st' o => processOffset_subset symbols fileSymbol text entry.2 st' o) _ st x hx

theorem processName_seenInv (symbols : List SymbolNodeLite)
    (fileSymbol : Option SymbolNodeLite) (text : List Char)
    (hsyms : ∀ u ∈ symbols, GoodKey u.id)
    (hfs : ∀ fs, fileSymbol = some fs → GoodKey fs.id)
    (st : List GraphEdge × List String) (entry : String × List SymbolNodeLite)
    (h : seenInv st) : seenInv (processName symbols fileSymbol text st entry) := by
  rw [processName]
  exact foldl_edges_inv _
    (fun st' o => processOffset_seenInv symbols fileSymbol text entry.2 hsyms hfs st' o)
    _ st h

theorem processName_hit (symbols : List SymbolNodeLite)
    (fileSymbol : Option SymbolNodeLite) (text : List Char)
    (s : SymbolNodeLite) (ts : List SymbolNodeLite) (o : Nat)
    (ho : o ∈ scanCalls text s.name.data)
    (hfind : findContainingSymbol symbols (positionAt text o) = some s)
    (hsts : s ∈ ts) (hg : GoodKey s.id)
    (hsyms : ∀ u ∈ symbols, GoodKey u.id)
    (hfs : ∀ fs, fileSymbol = some fs → GoodKey fs.id) :
    ∀ st, seenInv st →
      (⟨s.id, s.id, GraphEdgeKind.Call⟩ : GraphEdge) ∈
        (processName symbols fileSymbol text st (s.name, ts)).1 := by
  intro st hst
  rw [processName]
  exact foldl_edges_mem _ _ o
    (fun st' o' => processOffset_subset symbols fileSymbol text ts st' o')
    (fun st' o' => processOffset_seenInv symbols fileSymbol text ts hsyms hfs st' o')
    (fun st' hst' => processOffset_hit symbols fileSymbol text ts s o hfind hsts hg st' hst')
    (scanCalls text s.name.data) st ho hst

/-- Assembly: a callable symbol that the scan hits at its own position,
resolved as its own enclosing symbol, yields a stored self edge. -/
theorem computeIntraFileCallEdges_self (snapshot : FileStructureSnapshot) (text : List Char)
    (s : SymbolNodeLite) (ts : List SymbolNodeLite) (o : Nat)
    (hsyms : ∀ u ∈ snapshot.symbols, GoodKey u.id)
    (hentry : (s.name, ts) ∈ groupByName snapshot.symbols)
    (hsts : s ∈ ts)
    (ho : o ∈ scanCalls text s.name.data)
    (hfind : findContainingSymbol snapshot.symbols (positionAt text o) = some s)
    (hg : GoodKey s.id) :
    (⟨s.id, s.id, GraphEdgeKind.Call⟩ : GraphEdge) ∈
      computeIntraFileCallEdges snapshot text := by
  rw [computeIntraFileCallEdges]
  have hfs : ∀ fs,
      snapshot.symbols.find? (fun u => decide (u.kind = CodeSymbolKind.File)) = some fs →
      GoodKey fs.id :=
    fun fs hfsv => hsyms fs (List.mem_of_find?_eq_some hfsv)
  exact foldl_edges_mem _ _ (s.name, ts)
    (fun st en x hx => processName_subset _ _ _ st en x hx)
    (fun st en hst => processName_seenInv _ _ _ hsyms hfs st en hst)
    (fun st hst => processName_hit _ _ _ s ts o ho hfind hsts hg hsyms hfs st hst)
    (groupByName snapshot.symbols) ([], []) hentry
    (fun key hkey => absurd hkey (by simp))

/-- Claim C10 (counterexample): not every Function/Method symbol yields a
self edge.  For the document `"function f"` the snapshot contains a
Function symbol `f`, but its declaration has no parenthesis, so the call
pattern never matches and the computed edge set contains no self edge
for it (it is empty). -/
theorem c10_counterexample :
    ∃ s ∈ (buildSnapshot "file:///t.ts" 1 "typescript" "function f".data 0).symbols,
      s.kind = CodeSymbolKind.Function ∧
      (⟨s.id, s.id, GraphEdgeKind.Call⟩ : GraphEdge) ∉
        computeIntraFileCallEdges
          (buildSnapshot "file:///t.ts" 1 "typescript" "function f".data 0)
          "function f".data := by
  refine ⟨functionSymbol "file:///t.ts" "function f".data "f".data 1, by decide, rfl, ?_⟩
  decide

/-- Claim C10 (amended): for every snapshot built by the structure
indexer over a `>`-free uri, every Function or Method symbol whose
declaration text actually matches the name-followed-by-parenthesis call
pattern at the symbol's own start position yields a self edge (`from`
and `to` both the symbol's id) in the computed edge set.  (The original
claim fails for parameterless declarations such as `"function f"`, where
the declaration never matches the call pattern; see the
counterexample.) -/
theorem c10_self_edges
    (uri : String) (version : Nat) (languageId : String) (text : List Char) (now : Nat)
    (hu : ∀ c ∈ uri.data, c ≠ '>')
    (s : SymbolNodeLite)
    (hs : s ∈ (buildSnapshot uri version languageId text now).symbols)
    (hkind : s.kind = CodeSymbolKind.Function ∨ s.kind = CodeSymbolKind.Method)
    (o e : Nat)
    (hmatch : matchCallAt text s.name.data o = some e)
    (hpos : positionAt text o = ⟨s.range.startLineNumber, s.range.startColumn⟩) :
    (⟨s.id, s.id, GraphEdgeKind.Call⟩ : GraphEdge) ∈
      computeIntraFileCallEdges (buildSnapshot uri version languageId text now) text := by
  have hsymbols : (buildSnapshot uri version languageId text now).symbols =
      fileSymbolOf uri (splitLines text) :: scanLines uri (splitLines text) 1 none := rfl
  have hnonecls : ∀ cid : String, (none : Option String) = some cid →
      ∀ c ∈ cid.data, c ≠ '>' := by rintro cid ⟨⟩
  have hsfile : (fileSymbolOf uri (splitLines text)).kind = CodeSymbolKind.File := rfl
  have hs' : s ∈ scanLines uri (splitLines text) 1 none := by
    rw [hsymbols] at hs
    rcases List.mem_cons.mp hs with rfl | h
    · rcases hkind with hk | hk <;> rw [hsfile] at hk <;> cases hk
    · exact h
  obtain ⟨hline_eq, hcol_le, hkind_ne, hname0, hnamechars, hgood⟩ :=
    scanLines_symbol_facts uri hu (splitLines text) 1 none hnonecls s hs'
  have hsyms : ∀ u ∈ (buildSnapshot uri version languageId text now).symbols, GoodKey u.id := by
    intro u humem
    rw [hsymbols] at humem
    rcases List.mem_cons.mp humem with rfl | h
    · exact fileSymbolId_good uri hu
    · exact (scanLines_symbol_facts uri hu (splitLines text) 1 none hnonecls u h).2.2.2.2.2
  have hfind : findContainingSymbol (buildSnapshot uri version languageId text now).symbols
      (positionAt text o) = some s := by
    rw [hsymbols, hpos]
    exact findContainingSymbol_snapshot (fileSymbolOf uri (splitLines text)) hsfile
      (scanLines uri (splitLines text) 1 none)
      ⟨s.range.startLineNumber, s.range.startColumn⟩ s
      (fun t ht => (scanLines_symbol_facts uri hu (splitLines text) 1 none hnonecls t ht).1)
      (fun t ht => (scanLines_symbol_facts uri hu (splitLines text) 1 none hnonecls t ht).2.2.1)
      (scanLines_pairwise uri (splitLines text) 1 none) hs' rfl
      (containsPosition_start s.range hline_eq hcol_le)
  obtain ⟨ts, hentry, hsts⟩ :=
    groupByName_mem (buildSnapshot uri version languageId text now).symbols s
      (by rw [hsymbols]; exact List.mem_cons_of_mem _ hs') hkind
  have ho : o ∈ scanCalls text s.name.data :=
    scanCalls_complete text s.name.data hname0 hnamechars o e hmatch
  exact computeIntraFileCallEdges_self (buildSnapshot uri version languageId text now) text
    s ts o hsyms hentry hsts ho hfind hgood

/-- Witness for C10: in `"function a(){ b(); }\nfunction b(){}"` the
function `a` matches the call pattern at its own declaration (offset 9),
so the edge set contains the self edge `a -> a`. -/
theorem c10_self_edges_witness :
    (⟨"file:///t.ts::a@1", "file:///t.ts::a@1", GraphEdgeKind.Call⟩ : GraphEdge) ∈
      computeIntraFileCallEdges
        (buildSnapshot "file:///t.ts" 1 "typescript"
          "function a(){ b(); }\nfunction b(){}".data 0)
        "function a(){ b(); }\nfunction b(){}".data := by
  have h := c10_self_edges "file:///t.ts" 1 "typescript"
    "function a(){ b(); }\nfunction b(){}".data 0 (by decide)
    (functionSymbol "file:///t.ts" "function a(){ b(); }".data "a".data 1)
    (by decide) (Or.inl rfl) 9 11 (by decide) (by decide)
  exact h

end CodeIndex
